import Mathlib

/-!
Verification of the Entity Resolution & Status Derivation Engine
(`src/api/upload.js`) against its natural-language specification.

Strings are modelled as `List Char` (`Str`); JavaScript string values are
embedded through `String.toList`.  JavaScript regular-expression operations
are modelled at the call sites where the source applies them, specialised to
the value domains that actually reach them (documented at each definition).
Floating-point similarity ratings (the external `string-similarity` library)
are modelled over `ℚ` with exact Dice-coefficient arithmetic; none of the
theorems below depends on IEEE rounding of those ratings.
-/

namespace UploadSync

abbrev Str := List Char

/-- Embed a Lean string literal as the character-list string model. -/
def lit (s : String) : Str := s.toList

/-- Characters the normalizer keeps: `[a-z0-9]` (JS regex character class). -/
def lowerAlnum (c : Char) : Bool :=
  (97 ≤ c.toNat && c.toNat ≤ 122) || (48 ≤ c.toNat && c.toNat ≤ 57)

/-- ASCII whitespace, the model of the JS `\s` class / `String.prototype.trim`
domain for the values this program manipulates. -/
def wsChar (c : Char) : Bool :=
  c.toNat = 32 || c.toNat = 9 || c.toNat = 10 || c.toNat = 13 || c.toNat = 11 || c.toNat = 12

/-- Model of `String.prototype.toLowerCase` on one character (ASCII case
folding; the labels and keys this program compares are ASCII). -/
def lowerCh (c : Char) : Char :=
  if 65 ≤ c.toNat && c.toNat ≤ 90 then Char.ofNat (c.toNat + 32) else c

/-- Model of Unicode NFD decomposition per character: identity on ASCII code
points (which have no decomposition); a representative table for the
accented Latin letters that occur in investor names; identity elsewhere. -/
def nfdChar (c : Char) : Str :=
  if c.toNat < 128 then [c] else
  if c = 'é' || c = 'è' || c = 'ê' || c = 'ë' then ['e', Char.ofNat 0x301] else
  if c = 'á' || c = 'à' || c = 'â' || c = 'ä' || c = 'ã' || c = 'å' then ['a', Char.ofNat 0x300] else
  if c = 'í' || c = 'ì' || c = 'î' || c = 'ï' then ['i', Char.ofNat 0x301] else
  if c = 'ó' || c = 'ò' || c = 'ô' || c = 'ö' || c = 'õ' then ['o', Char.ofNat 0x301] else
  if c = 'ú' || c = 'ù' || c = 'û' || c = 'ü' then ['u', Char.ofNat 0x301] else
  if c = 'ñ' then ['n', Char.ofNat 0x303] else
  [c]

/-- Combining diacritical marks `[̀-ͯ]` stripped by
`normalizeAscii`. -/
def combining (c : Char) : Bool := 0x300 ≤ c.toNat && c.toNat ≤ 0x36F

/-- `normalizeAscii`: `String(s||"").normalize('NFD').replace(/[̀-ͯ]/g,'')`. -/
def normalizeAscii (l : Str) : Str :=
  (l.flatMap nfdChar).filter (fun c => !combining c)

/-- Characterwise part of `replace(/[^a-z0-9]+/g, " ")`: every character
outside `[a-z0-9]` becomes a space (runs are then collapsed by
`collapseWs`, giving exactly one space per run as the regex does). -/
def toSpaces (l : Str) : Str := l.map (fun c => if lowerAlnum c then c else ' ')

/-- Collapse every maximal run of whitespace to a single `' '`
(the `/\s+/g → " "` replacement, and the run-collapsing half of
`/[^a-z0-9]+/g → " "`). -/
def collapseWs : Str → Str
  | [] => []
  | [a] => if wsChar a then [' '] else [a]
  | a :: b :: rest =>
    if wsChar a && wsChar b then collapseWs (b :: rest)
    else (if wsChar a then ' ' else a) :: collapseWs (b :: rest)

/-- Drop leading whitespace (half of `String.prototype.trim`). -/
def ltrim (l : Str) : Str := l.dropWhile wsChar

/-- Drop trailing whitespace (the other half of `trim`). -/
def rtrim : Str → Str
  | [] => []
  | c :: rest =>
    match rtrim rest with
    | [] => if wsChar c then [] else [c]
    | r => c :: r

/-- `String.prototype.trim`. -/
def trimStr (l : Str) : Str := rtrim (ltrim l)

/-- `normalizeName`: NFD-strip, lowercase, `[^a-z0-9]+ → " "`, trim,
`\s+ → " "` (the final collapse is the source's last `replace`). -/
def normalizeName (l : Str) : Str :=
  collapseWs (trimStr (collapseWs (toSpaces ((normalizeAscii l).map lowerCh))))

/-- Alternatives of the first suffix regex
`/\b(incorporated|inc|ltd|limited|llc|l\.l\.c\.|llp|l\.l\.p\.|lp|l\.p\.|plc|gmbh|sarl|s\.a\.?|ag|bv|b\.v\.)\b\.?$/g`
that can match a dot-free normalized string (the dotted alternatives
require a literal `.`, which `normalizeName` output never contains). -/
def legalSuffixToks : List Str :=
  [lit "incorporated", lit "inc", lit "ltd", lit "limited", lit "llc",
   lit "llp", lit "lp", lit "plc", lit "gmbh", lit "sarl", lit "ag", lit "bv"]

/-- Alternatives of the second suffix regex
`/\b(co|co\.|company|partners|holdings|capital)\b$/g` matchable on a
dot-free string. -/
def bizSuffixToks : List Str :=
  [lit "co", lit "company", lit "partners", lit "holdings", lit "capital"]

/-- The final maximal `[a-z0-9]` run of the string (empty if the string
ends with a non-alphanumeric character). -/
def lastWord (l : Str) : Str := (l.reverse.takeWhile lowerAlnum).reverse

/-- One end-anchored suffix replacement `\b(tok)\b\.?$ → ""` on a string
over the alphabet `[a-z0-9 ]`: the match succeeds iff the final maximal
alphanumeric run is one of the alternation's tokens (word boundaries hold
exactly there, and `$` forces the match to end at the last character), and
replacement removes exactly those characters, keeping any preceding space. -/
def dropSuffixTok (toks : List Str) (l : Str) : Str :=
  match l.getLast? with
  | some c =>
    if lowerAlnum c && toks.contains (lastWord l) then
      l.take (l.length - (lastWord l).length)
    else l
  | none => l

/-- `stripLegalSuffixes`: normalize, then the two single-pass end-anchored
suffix replacements, then `\s+ → " "` and `trim`. -/
def stripLegalSuffixes (l : Str) : Str :=
  trimStr (collapseWs (dropSuffixTok bizSuffixToks (dropSuffixTok legalSuffixToks (normalizeName l))))

/-- `normalizeOrgKey`. -/
def normalizeOrgKey (l : Str) : Str := stripLegalSuffixes l

/-- Split a string into its maximal space-free words
(`split(' ').filter(Boolean)` on normalized strings). -/
def wordsOf : Str → List Str
  | [] => []
  | c :: rest =>
    if c = ' ' then wordsOf rest
    else (c :: rest.takeWhile (fun d => !(d = ' '))) ::
      wordsOf (rest.dropWhile (fun d => !(d = ' ')))
  termination_by l => l.length
  decreasing_by
  · simp only [List.length_cons]; omega
  · have h : (rest.dropWhile (fun d => !(d = ' '))).length ≤ rest.length :=
      (List.dropWhile_sublist _).length_le
    simp only [List.length_cons]
    omega

/-- Join words back with single spaces (`List.intercalate` specialised). -/
def joinWords : List Str → Str
  | [] => []
  | [w] => w
  | w :: ws => w ++ ' ' :: joinWords ws

/-- Generational suffixes removed by `normalizePersonKey`:
`/\b(jr|sr|ii|iii|iv)\b/g`. -/
def genSuffixToks : List Str := [lit "jr", lit "sr", lit "ii", lit "iii", lit "iv"]

/-- `normalizePersonKey`: `normalizeName(name).replace(/\b(jr|sr|ii|iii|iv)\b/g,"").replace(/\s+/g," ").trim()`.
On the normalized string the whole-word regex occurrences are exactly the
space-delimited words, and removing them followed by collapsing and
trimming equals filtering those words out and re-joining. -/
def normalizePersonKey (l : Str) : Str :=
  joinWords ((wordsOf (normalizeName l)).filter (fun w => !genSuffixToks.contains w))

/-! ### Shape of normalized strings -/

/-- All characters of `l` are in the normalized alphabet `[a-z0-9 ]`. -/
def allNorm (l : Str) : Prop := ∀ c ∈ l, lowerAlnum c = true ∨ c = ' '

/-- No two adjacent whitespace characters. -/
def noWsPair : Str → Bool
  | a :: b :: rest => (!(wsChar a && wsChar b)) && noWsPair (b :: rest)
  | _ => true

/-- The first character, if any, is not whitespace. -/
def headNoWs (l : Str) : Prop := ∀ c ∈ l.head?, wsChar c = false

/-- The last character, if any, is not whitespace. -/
def lastNoWs (l : Str) : Prop := ∀ c ∈ l.getLast?, wsChar c = false

/-- Word lists produced from normalized strings: nonempty, all `[a-z0-9]`. -/
def goodWords (ws : List Str) : Prop := ∀ w ∈ ws, w ≠ [] ∧ ∀ c ∈ w, lowerAlnum c = true

theorem lowerAlnum_not_ws {c : Char} (h : lowerAlnum c = true) : wsChar c = false := by
  simp only [lowerAlnum, Bool.or_eq_true, Bool.and_eq_true, decide_eq_true_eq] at h
  simp only [wsChar, Bool.or_eq_false_iff, decide_eq_false_iff_not]
  omega

theorem allNorm_not_ws {l : Str} (h : allNorm l) {c : Char} (hc : c ∈ l)
    (hw : wsChar c = true) : c = ' ' := by
  rcases h c hc with h1 | h1
  · rw [lowerAlnum_not_ws h1] at hw; cases hw
  · exact h1

theorem space_not_alnum : lowerAlnum ' ' = false := by decide

theorem space_ws : wsChar ' ' = true := by decide

/-! ### The normalizer alphabet is produced and preserved by each stage -/

theorem allNorm_toSpaces (l : Str) : allNorm (toSpaces l) := by
  intro c hc
  simp only [toSpaces, List.mem_map] at hc
  obtain ⟨a, _, ha⟩ := hc
  by_cases h : lowerAlnum a = true
  · left; rw [← ha]; simp [h]
  · right; rw [← ha]; simp [h]

theorem allNorm_collapseWs {l : Str} (h : allNorm l) : allNorm (collapseWs l) := by
  induction l using collapseWs.induct with
  | case1 => intro c hc; cases hc
  | case2 a hw =>
    intro c hc
    rw [collapseWs, if_pos hw] at hc
    simp only [List.mem_singleton] at hc
    right; exact hc
  | case3 a hw =>
    intro c hc
    rw [collapseWs, if_neg hw] at hc
    simp only [List.mem_singleton] at hc
    subst hc; exact h c (by simp)
  | case4 a b rest hab ih =>
    intro c hc
    rw [collapseWs, if_pos hab] at hc
    exact ih (fun x hx => h x (List.mem_cons_of_mem _ hx)) c hc
  | case5 a b rest hab ih =>
    intro c hc
    rw [collapseWs, if_neg hab] at hc
    rcases List.mem_cons.mp hc with h1 | h1
    · by_cases hw : wsChar a = true
      · right; simpa [hw] using h1
      · rw [if_neg hw] at h1; subst h1; exact h _ (by simp)
    · exact ih (fun x hx => h x (List.mem_cons_of_mem _ hx)) c h1

theorem allNorm_of_sublist {l l' : Str} (hs : List.Sublist l' l) (h : allNorm l) : allNorm l' :=
  fun c hc => h c (hs.subset hc)

theorem allNorm_ltrim {l : Str} (h : allNorm l) : allNorm (ltrim l) :=
  allNorm_of_sublist (List.dropWhile_sublist _) h

theorem rtrim_sublist (l : Str) : List.Sublist (rtrim l) l := by
  induction l with
  | nil => simp [rtrim]
  | cons c rest ih =>
    rw [rtrim]
    match hr : rtrim rest with
    | [] =>
      by_cases hw : wsChar c = true
      · simp only [hw, if_pos]; exact List.nil_sublist _
      · simp only [hw]; simp
    | d :: r =>
      rw [hr] at ih
      exact List.Sublist.cons₂ c ih

theorem allNorm_rtrim {l : Str} (h : allNorm l) : allNorm (rtrim l) :=
  allNorm_of_sublist (rtrim_sublist l) h

theorem allNorm_trimStr {l : Str} (h : allNorm l) : allNorm (trimStr l) :=
  allNorm_rtrim (allNorm_ltrim h)

theorem allNorm_normalizeName (l : Str) : allNorm (normalizeName l) := by
  unfold normalizeName
  exact allNorm_collapseWs (allNorm_trimStr (allNorm_collapseWs (allNorm_toSpaces _)))

/-! ### Whitespace-run and edge facts about the pipeline stages -/

theorem collapseWs_head {b : Char} (rest : Str) (hb : wsChar b = false) :
    (collapseWs (b :: rest)).head? = some b := by
  cases rest with
  | nil => rw [collapseWs, if_neg (by simp [hb])]; rfl
  | cons d r =>
    rw [collapseWs, if_neg (by simp [hb]), if_neg (by simp [hb])]
    rfl

theorem noWsPair_tail {a : Char} {l : Str} (h : noWsPair (a :: l) = true) :
    noWsPair l = true := by
  cases l with
  | nil => rfl
  | cons b rest => rw [noWsPair, Bool.and_eq_true] at h; exact h.2

theorem noWsPair_collapseWs (l : Str) : noWsPair (collapseWs l) = true := by
  induction l using collapseWs.induct with
  | case1 => rfl
  | case2 a hw => rw [collapseWs, if_pos hw]; rfl
  | case3 a hw => rw [collapseWs, if_neg hw]; rfl
  | case4 a b rest hab ih => rw [collapseWs, if_pos hab]; exact ih
  | case5 a b rest hab ih =>
    rw [collapseWs, if_neg hab]
    by_cases hb : wsChar b = true
    · have ha : wsChar a = false := by
        cases hwa : wsChar a
        · rfl
        · exact absurd (by simp [hwa, hb]) hab
      rw [if_neg (by simp [ha])]
      cases hcb : collapseWs (b :: rest) with
      | nil => rfl
      | cons x xs =>
        rw [noWsPair, Bool.and_eq_true]
        refine ⟨by simp [ha], ?_⟩
        rw [← hcb]; exact ih
    · have hb' : wsChar b = false := by simpa using hb
      have hd := collapseWs_head rest hb'
      cases hcb : collapseWs (b :: rest) with
      | nil => rfl
      | cons x xs =>
        rw [hcb] at hd
        simp only [List.head?_cons, Option.some.injEq] at hd
        subst hd
        rw [noWsPair, Bool.and_eq_true]
        constructor
        · simp [hb']
        · rw [← hcb]; exact ih

theorem noWsPair_ltrim {l : Str} (h : noWsPair l = true) : noWsPair (ltrim l) = true := by
  induction l with
  | nil => rfl
  | cons c rest ih =>
    rw [ltrim, List.dropWhile_cons]
    by_cases hw : wsChar c = true
    · simp only [hw, if_pos]
      exact ih (noWsPair_tail h)
    · simp only [hw]; simpa using h

theorem rtrim_cons_shape (c : Char) (rest : Str) :
    rtrim (c :: rest) = [] ∨ ∃ r, rtrim (c :: rest) = c :: r := by
  rw [rtrim]
  match rtrim rest with
  | [] =>
    by_cases hw : wsChar c = true
    · left; simp [hw]
    · right; exact ⟨[], by simp [hw]⟩
  | d :: r => right; exact ⟨d :: r, rfl⟩

theorem noWsPair_rtrim {l : Str} (h : noWsPair l = true) : noWsPair (rtrim l) = true := by
  induction l with
  | nil => rfl
  | cons c rest ih =>
    rw [rtrim]
    match hr : rtrim rest with
    | [] =>
      by_cases hw : wsChar c = true
      · simp [hw]; rfl
      · simp [hw]; rfl
    | d :: r =>
      have hsh := rtrim_cons_shape c rest
      rcases rest with _ | ⟨e, rest'⟩
      · simp [rtrim] at hr
      · have hd : d = e := by
          rcases rtrim_cons_shape e rest' with h0 | ⟨r', h0⟩
          · rw [h0] at hr; cases hr
          · rw [h0] at hr; exact (List.cons.injEq _ _ _ _ ▸ hr).1.symm
        subst hd
        rw [noWsPair, Bool.and_eq_true]
        constructor
        · rw [noWsPair, Bool.and_eq_true] at h; exact h.1
        · rw [← hr]; exact ih (noWsPair_tail h)

theorem headNoWs_ltrim (l : Str) : headNoWs (ltrim l) := by
  intro c hc
  have h := List.head?_dropWhile_not wsChar l
  rw [ltrim, Option.mem_def] at hc
  rw [hc] at h
  simpa using h

theorem headNoWs_rtrim {l : Str} (h : headNoWs l) : headNoWs (rtrim l) := by
  cases l with
  | nil => intro c hc; cases hc
  | cons a rest =>
    rcases rtrim_cons_shape a rest with h0 | ⟨r, h0⟩
    · rw [h0]; intro c hc; cases hc
    · rw [h0]; intro c hc
      simp only [List.head?_cons, Option.mem_def, Option.some.injEq] at hc
      subst hc; exact h _ (by simp)

theorem lastNoWs_rtrim (l : Str) : lastNoWs (rtrim l) := by
  induction l with
  | nil => intro c hc; cases hc
  | cons a rest ih =>
    rw [rtrim]
    match hr : rtrim rest with
    | [] =>
      by_cases hw : wsChar a = true
      · simp only [hw, if_pos]; intro c hc; cases hc
      · rw [if_neg hw]
        intro c hc
        simp only [List.getLast?_singleton, Option.mem_def, Option.some.injEq] at hc
        subst hc; simpa using hw
    | d :: r =>
      intro c hc
      rw [List.getLast?_cons_cons] at hc
      rw [← hr] at hc
      exact ih c hc

/-! ### Each pipeline stage fixes already-normalized strings -/

theorem collapseWs_eq_self {l : Str} (ha : allNorm l) (hp : noWsPair l = true) :
    collapseWs l = l := by
  induction l using collapseWs.induct with
  | case1 => rfl
  | case2 a hw =>
    rw [collapseWs, if_pos hw]
    rw [allNorm_not_ws ha (by simp) hw]
  | case3 a hw => rw [collapseWs, if_neg hw]
  | case4 a b rest hab ih =>
    rw [noWsPair, Bool.and_eq_true] at hp
    have := hp.1
    rw [hab] at this
    cases this
  | case5 a b rest hab ih =>
    rw [collapseWs, if_neg hab]
    have ht := ih (fun c hc => ha c (List.mem_cons_of_mem _ hc)) (noWsPair_tail hp)
    rw [ht]
    by_cases hw : wsChar a = true
    · rw [if_pos hw, allNorm_not_ws ha (by simp) hw]
    · rw [if_neg hw]

theorem ltrim_eq_self {l : Str} (h : headNoWs l) : ltrim l = l := by
  cases l with
  | nil => rfl
  | cons a rest =>
    rw [ltrim, List.dropWhile_cons, if_neg]
    rw [h a (by simp)]
    simp

theorem rtrim_eq_self {l : Str} (h : lastNoWs l) : rtrim l = l := by
  induction l with
  | nil => rfl
  | cons a rest ih =>
    rw [rtrim]
    cases rest with
    | nil =>
      have ha : wsChar a = false := h a (by simp)
      simp [rtrim, ha]
    | cons b rest' =>
      have ht : rtrim (b :: rest') = b :: rest' := by
        apply ih
        intro c hc
        apply h
        rwa [List.getLast?_cons_cons]
      rw [ht]

theorem trimStr_eq_self {l : Str} (h1 : headNoWs l) (h2 : lastNoWs l) : trimStr l = l := by
  rw [trimStr, ltrim_eq_self h1, rtrim_eq_self h2]

theorem nfdChar_ascii {c : Char} (h : c.toNat < 128) : nfdChar c = [c] := by
  rw [nfdChar, if_pos (by simpa using h)]

theorem allNorm_lt128 {l : Str} (ha : allNorm l) {c : Char} (hc : c ∈ l) : c.toNat < 128 := by
  rcases ha c hc with h | h
  · simp only [lowerAlnum, Bool.or_eq_true, Bool.and_eq_true, decide_eq_true_eq] at h
    omega
  · subst h; decide

theorem flatMap_id_on {l : Str} (h : ∀ c ∈ l, nfdChar c = [c]) : l.flatMap nfdChar = l := by
  induction l with
  | nil => rfl
  | cons a rest ih =>
    rw [List.flatMap_cons, h a (by simp), ih (fun c hc => h c (List.mem_cons_of_mem _ hc))]
    rfl

theorem normalizeAscii_eq_self {l : Str} (ha : allNorm l) : normalizeAscii l = l := by
  rw [normalizeAscii, flatMap_id_on (fun c hc => nfdChar_ascii (allNorm_lt128 ha hc))]
  rw [List.filter_eq_self]
  intro c hc
  have := allNorm_lt128 ha hc
  simp only [combining, Bool.not_eq_true', Bool.or_eq_false_iff, Bool.and_eq_false_iff]
  simp only [decide_eq_false_iff_not]
  omega

theorem lowerCh_fix {c : Char} (h : lowerAlnum c = true ∨ c = ' ') : lowerCh c = c := by
  rw [lowerCh, if_neg]
  rcases h with h | h
  · simp only [lowerAlnum, Bool.or_eq_true, Bool.and_eq_true, decide_eq_true_eq] at h
    simp only [Bool.and_eq_true, decide_eq_true_eq, not_and]
    omega
  · subst h; decide

theorem toSpaces_eq_self {l : Str} (ha : allNorm l) : toSpaces l = l := by
  rw [toSpaces]
  have : ∀ c ∈ l, (fun c => if lowerAlnum c then c else ' ') c = id c := by
    intro c hc
    rcases ha c hc with h | h
    · simp [h]
    · subst h; simp
  rw [List.map_congr_left this, List.map_id]

theorem normalizeName_eq_self {l : Str} (ha : allNorm l) (hp : noWsPair l = true)
    (h1 : headNoWs l) (h2 : lastNoWs l) : normalizeName l = l := by
  rw [normalizeName, normalizeAscii_eq_self ha]
  have hm : l.map lowerCh = l := by
    have : ∀ c ∈ l, lowerCh c = id c := fun c hc => lowerCh_fix (ha c hc)
    rw [List.map_congr_left this, List.map_id]
  rw [hm, toSpaces_eq_self ha, collapseWs_eq_self ha hp, trimStr_eq_self h1 h2,
    collapseWs_eq_self ha hp]

/-! ### The normalizer always produces a normalized string -/

theorem normalizeName_reduced (l : Str) :
    normalizeName l = trimStr (collapseWs (toSpaces ((normalizeAscii l).map lowerCh))) := by
  rw [normalizeName]
  apply collapseWs_eq_self
  · exact allNorm_trimStr (allNorm_collapseWs (allNorm_toSpaces _))
  · exact noWsPair_rtrim (noWsPair_ltrim (noWsPair_collapseWs _))

theorem noWsPair_normalizeName (l : Str) : noWsPair (normalizeName l) = true := by
  rw [normalizeName_reduced, trimStr]
  exact noWsPair_rtrim (noWsPair_ltrim (noWsPair_collapseWs _))

theorem headNoWs_normalizeName (l : Str) : headNoWs (normalizeName l) := by
  rw [normalizeName_reduced, trimStr]
  exact headNoWs_rtrim (headNoWs_ltrim _)

theorem lastNoWs_normalizeName (l : Str) : lastNoWs (normalizeName l) := by
  rw [normalizeName_reduced, trimStr]
  exact lastNoWs_rtrim _

theorem normalizeName_idem (l : Str) : normalizeName (normalizeName l) = normalizeName l :=
  normalizeName_eq_self (allNorm_normalizeName l) (noWsPair_normalizeName l)
    (headNoWs_normalizeName l) (lastNoWs_normalizeName l)

/-! ### Words of a normalized string -/

theorem alnum_ne_space {c : Char} (h : lowerAlnum c = true) : c ≠ ' ' := by
  intro he; subst he; cases h

theorem goodWords_wordsOf {l : Str} (ha : allNorm l) : goodWords (wordsOf l) := by
  induction l using wordsOf.induct with
  | case1 => intro w hw; rw [wordsOf] at hw; cases hw
  | case2 rest ih =>
    rw [wordsOf, if_pos rfl]
    exact ih (fun x hx => ha x (List.mem_cons_of_mem _ hx))
  | case3 c rest hc ih =>
    rw [wordsOf, if_neg hc]
    intro w hw
    rcases List.mem_cons.mp hw with h1 | h1
    · subst h1
      constructor
      · simp
      · intro x hx
        rcases List.mem_cons.mp hx with h2 | h2
        · subst h2
          rcases ha x (by simp) with h3 | h3
          · exact h3
          · exact absurd h3 hc
        · have hmem : x ∈ rest := (List.takeWhile_sublist _).subset h2
          have hne := List.mem_takeWhile_imp h2
          rcases ha x (List.mem_cons_of_mem _ hmem) with h3 | h3
          · exact h3
          · subst h3; simp at hne
    · exact ih (allNorm_of_sublist ((List.dropWhile_sublist _).cons _) ha) w h1

theorem joinWords_cons_cons (w w₂ : Str) (ws : List Str) :
    joinWords (w :: w₂ :: ws) = w ++ ' ' :: joinWords (w₂ :: ws) := rfl

theorem allNorm_joinWords {ws : List Str} (h : goodWords ws) : allNorm (joinWords ws) := by
  induction ws with
  | nil => intro c hc; cases hc
  | cons w ws ih =>
    cases ws with
    | nil =>
      intro c hc
      left; exact (h w (by simp)).2 c hc
    | cons w₂ ws' =>
      rw [joinWords_cons_cons]
      intro c hc
      rcases List.mem_append.mp hc with h1 | h1
      · left; exact (h w (by simp)).2 c h1
      · rcases List.mem_cons.mp h1 with h2 | h2
        · right; exact h2
        · exact ih (fun v hv => h v (List.mem_cons_of_mem _ hv)) c h2

theorem joinWords_head {w : Str} (ws : List Str) (hne : w ≠ [])
    (hg : ∀ c ∈ w, lowerAlnum c = true) :
    ∃ c r, joinWords (w :: ws) = c :: r ∧ lowerAlnum c = true := by
  cases w with
  | nil => exact absurd rfl hne
  | cons c w' =>
    cases ws with
    | nil => exact ⟨c, w', rfl, hg c (by simp)⟩
    | cons w₂ ws' => exact ⟨c, w' ++ ' ' :: joinWords (w₂ :: ws'), rfl, hg c (by simp)⟩

theorem noWsPair_append {xs ys : Str} (hx : ∀ c ∈ xs, wsChar c = false)
    (hy : noWsPair ys = true) : noWsPair (xs ++ ys) = true := by
  induction xs with
  | nil => simpa using hy
  | cons a xs ih =>
    have ha : wsChar a = false := hx a (by simp)
    have ht := ih (fun c hc => hx c (List.mem_cons_of_mem _ hc))
    cases hxy : xs ++ ys with
    | nil => rw [List.cons_append, hxy]; rfl
    | cons b r =>
      rw [List.cons_append, hxy, noWsPair, Bool.and_eq_true]
      exact ⟨by simp [ha], by rw [← hxy]; exact ht⟩

theorem noWsPair_joinWords {ws : List Str} (h : goodWords ws) :
    noWsPair (joinWords ws) = true := by
  induction ws with
  | nil => rfl
  | cons w ws ih =>
    cases ws with
    | nil =>
      have hz : noWsPair (w ++ []) = true :=
        noWsPair_append (fun c hc => lowerAlnum_not_ws ((h w (by simp)).2 c hc)) rfl
      simpa using hz
    | cons w₂ ws' =>
      rw [joinWords_cons_cons]
      apply noWsPair_append
      · intro c hc; exact lowerAlnum_not_ws ((h w (by simp)).2 c hc)
      · obtain ⟨c, r, hj, hc⟩ :=
          joinWords_head ws' (h w₂ (by simp)).1 (h w₂ (by simp)).2
        rw [hj, noWsPair, Bool.and_eq_true]
        constructor
        · simp [lowerAlnum_not_ws hc]
        · rw [← hj]
          exact ih (fun v hv => h v (List.mem_cons_of_mem _ hv))

theorem headNoWs_joinWords {ws : List Str} (h : goodWords ws) : headNoWs (joinWords ws) := by
  cases ws with
  | nil => intro c hc; cases hc
  | cons w ws' =>
    obtain ⟨c, r, hj, hc⟩ := joinWords_head ws' (h w (by simp)).1 (h w (by simp)).2
    rw [hj]
    intro x hx
    simp only [List.head?_cons, Option.mem_def, Option.some.injEq] at hx
    subst hx
    exact lowerAlnum_not_ws hc

theorem lastNoWs_joinWords {ws : List Str} (h : goodWords ws) : lastNoWs (joinWords ws) := by
  induction ws with
  | nil => intro c hc; cases hc
  | cons w ws ih =>
    cases ws with
    | nil =>
      intro c hc
      have hmem := List.mem_of_mem_getLast? hc
      exact lowerAlnum_not_ws ((h w (by simp)).2 c hmem)
    | cons w₂ ws' =>
      rw [joinWords_cons_cons]
      have hne : joinWords (w₂ :: ws') ≠ [] := by
        obtain ⟨x, r, hj, _⟩ :=
          joinWords_head ws' (h w₂ (by simp)).1 (h w₂ (by simp)).2
        rw [hj]; simp
      intro c hc
      rw [List.getLast?_append_of_ne_nil _ (by simp)] at hc
      have hl : (' ' :: joinWords (w₂ :: ws')).getLast? = (joinWords (w₂ :: ws')).getLast? := by
        cases hj : joinWords (w₂ :: ws') with
        | nil => exact absurd hj hne
        | cons x r => rw [List.getLast?_cons_cons]
      rw [hl] at hc
      exact ih (fun v hv => h v (List.mem_cons_of_mem _ hv)) c hc

theorem wordsOf_joinWords {ws : List Str} (h : goodWords ws) : wordsOf (joinWords ws) = ws := by
  induction ws with
  | nil => rw [show joinWords [] = ([] : Str) from rfl, wordsOf]
  | cons w ws ih =>
    obtain ⟨hne, halnum⟩ := h w (by simp)
    cases w with
    | nil => exact absurd rfl hne
    | cons c w' =>
      have hc : ¬c = ' ' := alnum_ne_space (halnum c (by simp))
      have hw' : ∀ d ∈ w', (fun d => !decide (d = ' ')) d = true := by
        intro d hd
        simpa using alnum_ne_space (halnum d (List.mem_cons_of_mem _ hd))
      cases ws with
      | nil =>
        rw [show joinWords [c :: w'] = c :: w' from rfl, wordsOf, if_neg hc]
        rw [List.takeWhile_eq_self_iff.mpr hw', List.dropWhile_eq_nil_iff.mpr hw']
        rw [wordsOf]
      | cons w₂ ws' =>
        rw [joinWords_cons_cons, List.cons_append, wordsOf, if_neg hc]
        have ht : List.takeWhile (fun d => !decide (d = ' '))
            (w' ++ ' ' :: joinWords (w₂ :: ws')) = w' := by
          rw [List.takeWhile_append_of_pos hw', List.takeWhile_cons]
          simp
        have hd : List.dropWhile (fun d => !decide (d = ' '))
            (w' ++ ' ' :: joinWords (w₂ :: ws')) = ' ' :: joinWords (w₂ :: ws') := by
          rw [List.dropWhile_append_of_pos hw', List.dropWhile_cons]
          simp
        rw [ht, hd]
        have hsp : wordsOf (' ' :: joinWords (w₂ :: ws')) = wordsOf (joinWords (w₂ :: ws')) := by
          rw [wordsOf, if_pos rfl]
        rw [hsp, ih (fun v hv => h v (List.mem_cons_of_mem _ hv))]

theorem goodWords_filter {ws : List Str} (h : goodWords ws) (p : Str → Bool) :
    goodWords (ws.filter p) := fun w hw => h w (List.mem_of_mem_filter hw)

/-! ### Claims C4 and C5: organization-key normalization and idempotence -/

/-- C4 (counterexample): the claim asserts the legal-suffix stripping is
applied iteratively until no suffix matches, so that
"Foo Capital Partners LLC" reduces to "foo".  In the code each of the two
end-anchored suffix regexes is applied exactly once; the first strips
"llc" but leaves a trailing space, so the second (anchored at `$`) cannot
fire, and the produced OrgKey is "foo capital partners", not "foo". -/
theorem claim_C4_counterexample :
    normalizeOrgKey (lit "Foo Capital Partners LLC") = lit "foo capital partners" ∧
      normalizeOrgKey (lit "Foo Capital Partners LLC") ≠ lit "foo" := by
  constructor
  · rfl
  · decide

/-- C4 (amended): organization-key normalization strips legal-entity
suffix tokens in a single end-anchored pass per regex, not iteratively:
"Foo Capital Partners LLC" produces "foo capital partners", and only a
second application of the normalizer strips further ("foo capital"),
showing the stripping is not applied until a fixed point. -/
theorem claim_C4_theorem :
    normalizeOrgKey (lit "Foo Capital Partners LLC") = lit "foo capital partners" ∧
      normalizeOrgKey (normalizeOrgKey (lit "Foo Capital Partners LLC")) = lit "foo capital" := by
  constructor
  · rfl
  · rfl

/-- C5 (counterexample): normalizeOrgKey is not idempotent: on
"Partners LLC" the first application yields "partners" (only "llc" is
stripped), and a second application strips "partners" as well, yielding
the empty key. -/
theorem claim_C5_counterexample :
    normalizeOrgKey (normalizeOrgKey (lit "Partners LLC")) ≠
      normalizeOrgKey (lit "Partners LLC") := by
  decide

/-- C5 (amended): the person-key normalizer is idempotent on every input
(already-normalized person keys are fixed points); the organization-key
normalizer is not idempotent in general (see the counterexample), because
a stripped result whose final word is again a suffix token strips further
on re-application. -/
theorem claim_C5_theorem (l : Str) :
    normalizePersonKey (normalizePersonKey l) = normalizePersonKey l := by
  rw [normalizePersonKey, normalizePersonKey]
  have hg : goodWords (wordsOf (normalizeName l)) :=
    goodWords_wordsOf (allNorm_normalizeName l)
  have hgf : goodWords ((wordsOf (normalizeName l)).filter
      (fun w => !genSuffixToks.contains w)) :=
    goodWords_filter hg _
  rw [normalizeName_eq_self (allNorm_joinWords hgf) (noWsPair_joinWords hgf)
    (headNoWs_joinWords hgf) (lastNoWs_joinWords hgf)]
  rw [wordsOf_joinWords hgf]
  rw [List.filter_eq_self.mpr (fun w hw => (List.mem_filter.mp hw).2)]

/-! ### Stage vocabulary, gate configuration and option resolution -/

/-- `String.prototype.toLowerCase` on the whole string. -/
def lowerStr (l : Str) : Str := l.map lowerCh

/-- `STATUS_ORDER`: the ordered stage vocabulary (earliest → latest). -/
def STATUS_ORDER : List Str :=
  [lit "Target Identified",
   lit "Intro/First Meeting",
   lit "Early Dialogue (Post-Intro)",
   lit "Deck & PPM Sent",
   lit "Circle Back after First Close",
   lit "Invited to Data Room",
   lit "Data Room Accessed / NDA Executed",
   lit "Verbal Commit",
   lit "Ready for Sub Docs",
   lit "Sub Docs Sent",
   lit "Sub Docs Signed",
   lit "Committed"]

/-- Index of the first occurrence of a key in a list, starting at `n`. -/
def lookupIdxAux (k : Str) : List Str → Nat → Option Nat
  | [], _ => none
  | x :: xs, n => if x = k then some n else lookupIdxAux k xs (n + 1)

/-- `STATUS_INDEX.get(label.toLowerCase())`: the rank of a label in the
stage vocabulary (the map is keyed by the lowercased labels). -/
def statusIndex? (label : Str) : Option Nat :=
  lookupIdxAux (lowerStr label) (STATUS_ORDER.map lowerStr) 0

/-- The `?? -1` coalescing the handler applies to ranks. -/
def idxOrNeg (label : Str) : Int :=
  match statusIndex? label with
  | some i => (i : Int)
  | none => -1

/-- `isPassedLabel`: the hard-lock label set, compared on the trimmed,
lowercased current label. -/
def isPassedLabel (label : Str) : Bool :=
  let l := lowerStr (trimStr label)
  l = lit "passed" || l = lit "declined" || l = lit "no go" || l = lit "no-go" ||
    l = lit "nog o"

/-- First-match association-list lookup (JS `Map.get` / object indexing,
with keys in insertion order). -/
def lookupStr {α : Type} : List (Str × α) → Str → Option α
  | [], _ => none
  | (k, v) :: rest, key => if k = key then some v else lookupStr rest key

/-- `applyAlias`: `STATUS_LABEL_ALIASES_JSON[target.toLowerCase()] || target`
(a falsy — absent or empty — alias leaves the label unchanged). -/
def applyAlias (aliases : List (Str × Str)) (target : Str) : Str :=
  match lookupStr aliases (lowerStr target) with
  | some a => if a = [] then target else a
  | none => target

/-- Does `l` start with `pat`? -/
def prefixMatch : Str → Str → Bool
  | _, [] => true
  | [], _ :: _ => false
  | c :: l, p :: ps => c = p && prefixMatch l ps

/-- `String.prototype.includes`: substring containment. -/
def containsSub : Str → Str → Bool
  | [], pat => pat.isEmpty
  | c :: rest, pat => prefixMatch (c :: rest) pat || containsSub rest pat

/-- `hasAll`/`pickBy`: first known option label containing every pattern. -/
def pickBy (labels : List Str) (pats : List Str) : Option Str :=
  labels.find? (fun l => pats.all (fun p => containsSub l p))

/-- JS `||` on optional candidate labels (a found label is nonempty,
hence truthy). -/
def orO (a b : Option Str) : Option Str :=
  match a with
  | some x => some x
  | none => b

/-- The keyword-family candidate chain of `resolveStatusOptionId`
(each branch runs only while no candidate has been found, and its guard
does not depend on previously failed branches). -/
def keywordCandidate (norm : Str) (labels : List Str) : Option Str :=
  orO (if containsSub norm (lit "data") || containsSub norm (lit "nda") then
        orO (pickBy labels [lit "nda"])
          (orO (pickBy labels [lit "data", lit "room"]) (pickBy labels [lit "access"]))
      else none)
  (orO (if containsSub norm (lit "ready") then
          orO (pickBy labels [lit "ready", lit "sub"]) (pickBy labels [lit "ready", lit "doc"])
        else none)
  (orO (if containsSub norm (lit "sent") then
          orO (pickBy labels [lit "sent", lit "sub"]) (pickBy labels [lit "sent", lit "doc"])
        else none)
  (orO (if containsSub norm (lit "signed") then
          orO (pickBy labels [lit "sign", lit "sub"]) (pickBy labels [lit "execut"])
        else none)
  (orO (if containsSub norm (lit "verbal") then pickBy labels [lit "verbal"] else none)
  (orO (if containsSub norm (lit "deck") || containsSub norm (lit "ppm") then
          orO (pickBy labels [lit "deck"])
            (orO (pickBy labels [lit "ppm"]) (pickBy labels [lit "material"]))
        else none)
  (orO (if containsSub norm (lit "intro") then pickBy labels [lit "intro"] else none)
  (orO (if containsSub norm (lit "early") then pickBy labels [lit "early"] else none)
  (orO (if containsSub norm (lit "target") then
          orO (pickBy labels [lit "target"]) (pickBy labels [lit "new"])
        else none)
  (if containsSub norm (lit "commit") then pickBy labels [lit "commit"] else none)))))))))

/-! ### The external `string-similarity` library (Dice coefficient), in exact
rational arithmetic -/

/-- `compareTwoStrings` first removes all whitespace. -/
def stripAllWs (l : Str) : Str := l.filter (fun c => !wsChar c)

/-- Consecutive character bigrams. -/
def bigrams : Str → List (Char × Char)
  | a :: b :: rest => (a, b) :: bigrams (b :: rest)
  | _ => []

/-- Multiset-intersection size of two bigram lists (the library decrements
counts as it consumes matches). -/
def interCount : List (Char × Char) → List (Char × Char) → Nat
  | _, [] => 0
  | xs, y :: ys => if xs.contains y then 1 + interCount (xs.erase y) ys else interCount xs ys

/-- `stringSimilarity.compareTwoStrings` (Sørensen–Dice over bigrams). -/
def compareTwoStrings (a b : Str) : ℚ :=
  let a' := stripAllWs a
  let b' := stripAllWs b
  if a' = b' then 1
  else if a'.length < 2 || b'.length < 2 then 0
  else (2 * (interCount (bigrams a') (bigrams b') : ℚ)) /
    ((a'.length + b'.length - 2 : ℕ) : ℚ)

/-- `stringSimilarity.findBestMatch(...).bestMatch`: the first candidate of
maximal rating (later candidates replace the best only on strictly larger
rating). -/
def findBest (query : Str) : List Str → Option (Str × ℚ)
  | [] => none
  | c :: cs =>
    some (cs.foldl
      (fun best t =>
        if compareTwoStrings query t > best.2 then (t, compareTwoStrings query t) else best)
      (c, compareTwoStrings query c))

/-- `safeBestMatch`: best match if its rating reaches `minScore`. -/
def safeBestMatch (main : Str) (arr : List Str) (minScore : ℚ) : Option Str :=
  let cands := arr.filter (fun s => s.length ≠ 0)
  if main = [] then none
  else
    match findBest main cands with
    | some (t, r) => if r ≥ minScore then some t else none
    | none => none

/-- `safeBestMatchWithRating`: best match with its rating, no threshold. -/
def safeBestMatchWithRating (main : Str) (arr : List Str) : Option (Str × ℚ) :=
  let cands := arr.filter (fun s => s.length ≠ 0)
  if main = [] then none else findBest main cands

/-- `resolveStatusOptionId`: alias → direct lookup → keyword-family
candidate → fuzzy match at threshold 0.80. -/
def resolveStatusOptionId (aliases : List (Str × Str)) (tbl : List (Str × Nat))
    (label : Str) : Option Nat :=
  if label = [] then none
  else
    let norm := lowerStr (applyAlias aliases label)
    match lookupStr tbl norm with
    | some i => some i
    | none =>
      let labels := tbl.map Prod.fst
      match keywordCandidate norm labels with
      | some c =>
        match lookupStr tbl c with
        | some i => some i
        | none =>
          match safeBestMatch norm labels (4 / 5) with
          | some t => lookupStr tbl t
          | none => none
      | none =>
        match safeBestMatch norm labels (4 / 5) with
        | some t => lookupStr tbl t
        | none => none

/-! ### The write-safety gate (handler lines 850–895) -/

/-- Decision taken for one matched row. -/
inductive WriteDecision where
  | hardLocked
  | belowThreshold
  | wouldDowngrade
  | unchanged
  | noStatus
  | unknownLabel
  | wouldUpdate
  | authorized (optionId : Nat)
deriving DecidableEq, Repr

/-- The per-row gate of the handler: hard-lock check, minimum-threshold
check, non-downgrade check, unchanged check, derivation check, option
resolution (a JS-falsy resolved id — absent or `0` — is treated as
unresolved), then dry-run or write authorization. -/
def gateDecide (minLabel : Str) (aliases : List (Str × Str)) (tbl : List (Str × Nat))
    (dry : Bool) (currentLabel statusLabel : Str) : WriteDecision :=
  if isPassedLabel currentLabel then .hardLocked
  else if idxOrNeg minLabel ≠ -1 ∧ idxOrNeg statusLabel < idxOrNeg minLabel then
    .belowThreshold
  else if idxOrNeg currentLabel ≠ -1 ∧ idxOrNeg statusLabel ≠ -1 ∧
      idxOrNeg statusLabel < idxOrNeg currentLabel then
    .wouldDowngrade
  else if currentLabel ≠ [] ∧ lowerStr currentLabel = lowerStr statusLabel then
    .unchanged
  else if statusLabel = [] then .noStatus
  else
    match resolveStatusOptionId aliases tbl statusLabel with
    | none => .unknownLabel
    | some oid =>
      if oid = 0 then .unknownLabel
      else if dry then .wouldUpdate
      else .authorized oid

/-- A representative registry option table: the twelve vocabulary labels
(lowercased, as the handler keys them) with distinct option ids. -/
def sampleTbl : List (Str × Nat) :=
  [(lit "target identified", 100),
   (lit "intro/first meeting", 101),
   (lit "early dialogue (post-intro)", 102),
   (lit "deck & ppm sent", 103),
   (lit "circle back after first close", 104),
   (lit "invited to data room", 105),
   (lit "data room accessed / nda executed", 106),
   (lit "verbal commit", 107),
   (lit "ready for sub docs", 108),
   (lit "sub docs sent", 109),
   (lit "sub docs signed", 110),
   (lit "committed", 111)]

/-- The same table with the terminal "Passed" dropdown option present, as
on a real registry list. -/
def tblWithPassed : List (Str × Nat) := sampleTbl ++ [(lit "passed", 200)]

/-! ### A label with a known rank is never hard-locked -/

theorem lookupIdxAux_mem {k : Str} :
    ∀ {xs : List Str} {n i : Nat}, lookupIdxAux k xs n = some i → k ∈ xs := by
  intro xs
  induction xs with
  | nil => intro n i h; cases h
  | cons x rest ih =>
    intro n i h
    rw [lookupIdxAux] at h
    by_cases hx : x = k
    · subst hx; simp
    · rw [if_neg hx] at h
      exact List.mem_cons_of_mem _ (ih h)

theorem wsChar_lowerCh (c : Char) : wsChar (lowerCh c) = wsChar c := by
  rw [lowerCh]
  by_cases h : (65 ≤ c.toNat && c.toNat ≤ 90) = true
  · rw [if_pos h]
    simp only [Bool.and_eq_true, decide_eq_true_eq] at h
    have hv : (c.toNat + 32).isValidChar := by left; omega
    have ht : (Char.ofNat (c.toNat + 32)).toNat = c.toNat + 32 := by
      rw [Char.ofNat, dif_pos hv]; rfl
    have h1 : wsChar (Char.ofNat (c.toNat + 32)) = false := by
      simp only [wsChar, ht, Bool.or_eq_false_iff, decide_eq_false_iff_not]
      omega
    have h2 : wsChar c = false := by
      simp only [wsChar, Bool.or_eq_false_iff, decide_eq_false_iff_not]
      omega
    rw [h1, h2]
  · rw [if_neg h]

theorem dropWhile_ws_map (l : Str) :
    (l.map lowerCh).dropWhile wsChar = (l.dropWhile wsChar).map lowerCh := by
  induction l with
  | nil => rfl
  | cons c rest ih =>
    rw [List.map_cons, List.dropWhile_cons, List.dropWhile_cons, wsChar_lowerCh]
    by_cases h : wsChar c = true
    · simp only [h, if_pos]; exact ih
    · simp [h]

theorem rtrim_map (l : Str) : rtrim (l.map lowerCh) = (rtrim l).map lowerCh := by
  induction l with
  | nil => rfl
  | cons c rest ih =>
    rw [List.map_cons, rtrim, rtrim, ih]
    cases hr : rtrim rest with
    | nil =>
      rw [List.map_nil, wsChar_lowerCh]
      by_cases h : wsChar c = true
      · simp [h]
      · simp [h]
    | cons d r => rw [List.map_cons]; rfl

theorem lowerStr_trimStr (l : Str) : lowerStr (trimStr l) = trimStr (lowerStr l) := by
  rw [trimStr, trimStr, lowerStr, lowerStr, ltrim, ltrim, dropWhile_ws_map, rtrim_map]

theorem isPassed_of_statusIndex {label : Str} {i : Nat}
    (h : statusIndex? label = some i) : isPassedLabel label = false := by
  have hmem : lowerStr label ∈ STATUS_ORDER.map lowerStr := lookupIdxAux_mem h
  simp only [isPassedLabel]
  rw [lowerStr_trimStr]
  simp only [STATUS_ORDER, List.map_cons, List.map_nil, List.mem_cons,
    List.not_mem_nil, or_false] at hmem
  rcases hmem with h1|h1|h1|h1|h1|h1|h1|h1|h1|h1|h1|h1 <;> rw [h1] <;> decide

/-! ### Claim C3: hard-lock precedes everything -/

/-- C3: whenever the matched entity's current stored label is in the
hard-lock set (`isPassedLabel`, compared case-insensitively on the trimmed
label; the code's fixed set is passed / declined / no go / no-go / nog o),
the gate decision is HardLocked regardless of the derived label and of all
configuration, because the hard-lock test is the first check of the gate. -/
theorem claim_C3_theorem (minLabel : Str) (aliases : List (Str × Str))
    (tbl : List (Str × Nat)) (dry : Bool) (current derived : Str)
    (h : isPassedLabel current = true) :
    gateDecide minLabel aliases tbl dry current derived = .hardLocked := by
  rw [gateDecide, if_pos h]

/-- C3 witness: currentLabel "Passed", derivedLabel "Sub Docs Signed"
(the spec's Scenario 4) is HardLocked. -/
theorem claim_C3_witness :
    isPassedLabel (lit "Passed") = true ∧
      gateDecide (lit "Invited to Data Room") [] sampleTbl false (lit "Passed")
        (lit "Sub Docs Signed") = .hardLocked :=
  ⟨by decide, claim_C3_theorem _ _ _ _ _ _ (by decide)⟩

/-! ### Claim C1: non-downgrade -/

/-- C1 (counterexample): with the default minimum stage
"Invited to Data Room", a derived label of lower rank than the current one
("Target Identified" &lt; "Intro/First Meeting") is skipped, but it is
recorded as BelowThreshold, not as the WouldDowngrade skip the claim
asserts. -/
theorem claim_C1_counterexample :
    statusIndex? (lit "Intro/First Meeting") = some 1 ∧
    statusIndex? (lit "Target Identified") = some 0 ∧
    gateDecide (lit "Invited to Data Room") [] sampleTbl false
      (lit "Intro/First Meeting") (lit "Target Identified") = .belowThreshold ∧
    WriteDecision.belowThreshold ≠ WriteDecision.wouldDowngrade := by
  refine ⟨by decide, by decide, by decide, by decide⟩

/-- C1 (amended): when both labels have a known rank and
rank(derived) &lt; rank(current), the gate never returns Authorized; the
row is recorded as BelowThreshold when the derived rank is below the
configured minimum threshold (when that minimum has a known rank), and as
WouldDowngrade otherwise. -/
theorem claim_C1_theorem (minLabel : Str) (aliases : List (Str × Str))
    (tbl : List (Str × Nat)) (dry : Bool) (current derived : Str) (ci di : Nat)
    (hc : statusIndex? current = some ci) (hd : statusIndex? derived = some di)
    (hlt : di < ci) :
    (∀ oid, gateDecide minLabel aliases tbl dry current derived ≠ .authorized oid) ∧
    gateDecide minLabel aliases tbl dry current derived =
      (if idxOrNeg minLabel ≠ -1 ∧ (di : Int) < idxOrNeg minLabel then
        WriteDecision.belowThreshold
      else WriteDecision.wouldDowngrade) := by
  have hpass := isPassed_of_statusIndex hc
  have hci : idxOrNeg current = (ci : Int) := by rw [idxOrNeg, hc]
  have hdi : idxOrNeg derived = (di : Int) := by rw [idxOrNeg, hd]
  have hmain : gateDecide minLabel aliases tbl dry current derived =
      (if idxOrNeg minLabel ≠ -1 ∧ (di : Int) < idxOrNeg minLabel then
        WriteDecision.belowThreshold
      else WriteDecision.wouldDowngrade) := by
    rw [gateDecide, if_neg (by rw [hpass]; simp), hci, hdi]
    by_cases hmin : idxOrNeg minLabel ≠ -1 ∧ (di : Int) < idxOrNeg minLabel
    · rw [if_pos hmin, if_pos hmin]
    · rw [if_neg hmin, if_neg hmin, if_pos ⟨by omega, by omega, by omega⟩]
  refine ⟨?_, hmain⟩
  intro oid
  rw [hmain]
  split <;> simp

/-- C1 witness: a concrete downgrade pair with both ranks known on which
the amended theorem applies (no Authorized decision results). -/
theorem claim_C1_witness :
    gateDecide (lit "Invited to Data Room") [] sampleTbl false
      (lit "Intro/First Meeting") (lit "Target Identified") ≠ .authorized 106 :=
  (claim_C1_theorem (lit "Invited to Data Room") [] sampleTbl false
    (lit "Intro/First Meeting") (lit "Target Identified") 1 0
    (by decide) (by decide) (by decide)).1 106

/-! ### Claim C2: non-downgrade under malformed configuration -/

/-- C2 (counterexample): with an unrecognized minimum-stage label the
threshold check is disabled, and a derived label with no rank in the stage
vocabulary ("fancy nda package", as a malformed subscription-override
value produces) slips past both the threshold and the downgrade checks; it
is then resolved through the keyword-family heuristic to the option of
"data room accessed / nda executed" (rank 6) and authorized for writing
over the stored label "Committed" (rank 11) — the stored stage rank
decreases. -/
theorem claim_C2_counterexample :
    statusIndex? (lit "fancy nda package") = none ∧
    statusIndex? (lit "Committed") = some 11 ∧
    gateDecide (lit "No Minimum Configured") [] sampleTbl false
      (lit "Committed") (lit "fancy nda package") = .authorized 106 ∧
    lookupStr sampleTbl (lit "data room accessed / nda executed") = some 106 ∧
    statusIndex? (lit "data room accessed / nda executed") = some 6 ∧
    (6 : Nat) < 11 := by
  refine ⟨by decide, by decide, by decide, by decide, by decide, by decide⟩

/-- C2 (amended): provided the configured minimum-stage label has a known
rank, the gate fails closed at the label level: an Authorized decision
forces the derived label to have a known rank at least the minimum, and at
least the current label's rank whenever that rank is known — so a derived
label with no known rank is never written, and label-level decisions never
decrease the stage rank.  Without a recognized minimum-stage label this
fails (see the counterexample): an unknown-rank derived label can be
keyword/fuzzy-resolved to an arbitrary-rank option and written. -/
theorem claim_C2_theorem (minLabel : Str) (aliases : List (Str × Str))
    (tbl : List (Str × Nat)) (dry : Bool) (current derived : Str) (mi oid : Nat)
    (hmin : statusIndex? minLabel = some mi)
    (hauth : gateDecide minLabel aliases tbl dry current derived = .authorized oid) :
    ∃ di, statusIndex? derived = some di ∧ mi ≤ di ∧
      ∀ ci, statusIndex? current = some ci → ci ≤ di := by
  have hminI : idxOrNeg minLabel = (mi : Int) := by rw [idxOrNeg, hmin]
  rw [gateDecide] at hauth
  by_cases h1 : isPassedLabel current = true
  · rw [if_pos h1] at hauth; cases hauth
  · rw [if_neg h1] at hauth
    by_cases h2 : idxOrNeg minLabel ≠ -1 ∧ idxOrNeg derived < idxOrNeg minLabel
    · rw [if_pos h2] at hauth; cases hauth
    · rw [if_neg h2] at hauth
      have hge : ¬idxOrNeg derived < idxOrNeg minLabel := by
        intro hlt
        exact h2 ⟨by rw [hminI]; omega, hlt⟩
      rw [hminI] at hge
      cases hdx : statusIndex? derived with
      | none =>
        exfalso
        have hneg : idxOrNeg derived = -1 := by rw [idxOrNeg, hdx]
        rw [hneg] at hge
        omega
      | some di =>
        have hdiI : idxOrNeg derived = (di : Int) := by rw [idxOrNeg, hdx]
        refine ⟨di, rfl, by rw [hdiI] at hge; omega, ?_⟩
        intro ci hci
        have hciI : idxOrNeg current = (ci : Int) := by rw [idxOrNeg, hci]
        by_cases h3 : idxOrNeg current ≠ -1 ∧ idxOrNeg derived ≠ -1 ∧
            idxOrNeg derived < idxOrNeg current
        · rw [if_pos h3] at hauth; cases hauth
        · rw [hciI, hdiI] at h3
          omega

/-- C2 witness: under the default (recognized) minimum-stage label, a
write from "Verbal Commit" to "Committed" is authorized and the amended
fail-closed/non-downgrade property holds at that input. -/
theorem claim_C2_witness :
    ∃ di, statusIndex? (lit "Committed") = some di ∧ 5 ≤ di ∧
      ∀ ci, statusIndex? (lit "Verbal Commit") = some ci → ci ≤ di :=
  claim_C2_theorem (lit "Invited to Data Room") [] sampleTbl false
    (lit "Verbal Commit") (lit "Committed") 5 111 (by decide) (by decide)

/-! ### Claim C7: gate idempotence after a write -/

/-- C7 (counterexample): idempotence as claimed fails when the derived
label is itself a hard-lock label.  With an unrecognized minimum label, a
malformed override deriving "Passed" (whose option exists on the registry
field) is Authorized; re-running the gate with currentLabel = "Passed"
yields HardLocked, not Unchanged. -/
theorem claim_C7_counterexample :
    gateDecide (lit "zzz") [] tblWithPassed false (lit "Verbal Commit")
      (lit "Passed") = .authorized 200 ∧
    gateDecide (lit "zzz") [] tblWithPassed false (lit "Passed")
      (lit "Passed") = .hardLocked ∧
    WriteDecision.hardLocked ≠ WriteDecision.unchanged := by
  refine ⟨by decide, by decide, by decide⟩

/-- C7 (amended): whenever the gate returns Authorized and the derived
label is not itself in the hard-lock set, re-running the gate on the same
configuration with currentLabel replaced by the derived label yields
Unchanged. -/
theorem claim_C7_theorem (minLabel : Str) (aliases : List (Str × Str))
    (tbl : List (Str × Nat)) (current derived : Str) (oid : Nat)
    (hauth : gateDecide minLabel aliases tbl false current derived = .authorized oid)
    (hnp : isPassedLabel derived = false) :
    gateDecide minLabel aliases tbl false derived derived = .unchanged := by
  rw [gateDecide] at hauth
  by_cases h1 : isPassedLabel current = true
  · rw [if_pos h1] at hauth; cases hauth
  · rw [if_neg h1] at hauth
    by_cases h2 : idxOrNeg minLabel ≠ -1 ∧ idxOrNeg derived < idxOrNeg minLabel
    · rw [if_pos h2] at hauth; cases hauth
    · rw [if_neg h2] at hauth
      by_cases h3 : idxOrNeg current ≠ -1 ∧ idxOrNeg derived ≠ -1 ∧
          idxOrNeg derived < idxOrNeg current
      · rw [if_pos h3] at hauth; cases hauth
      · rw [if_neg h3] at hauth
        by_cases h4 : current ≠ [] ∧ lowerStr current = lowerStr derived
        · rw [if_pos h4] at hauth; cases hauth
        · rw [if_neg h4] at hauth
          by_cases h5 : derived = []
          · rw [if_pos h5] at hauth; cases hauth
          · rw [gateDecide, if_neg (by rw [hnp]; simp),
              if_neg h2, if_neg (by omega), if_pos ⟨h5, rfl⟩]

/-- C7 witness: an authorized write from "Verbal Commit" to "Committed"
re-evaluated with currentLabel = "Committed" yields Unchanged. -/
theorem claim_C7_witness :
    gateDecide (lit "Invited to Data Room") [] sampleTbl false
      (lit "Committed") (lit "Committed") = .unchanged :=
  claim_C7_theorem (lit "Invited to Data Room") [] sampleTbl
    (lit "Verbal Commit") (lit "Committed") 111 (by decide) (by decide)

/-! ### The status deriver (`deriveStatusLabelFromRow`) -/

/-- A CSV row: column name → text value, in column order (JS object with
string keys; lookups return the first — only — binding). -/
abbrev Row := List (Str × Str)

/-- JS `||` on strings: the empty string is falsy. -/
def jsOrStr (a b : Str) : Str := if a = [] then b else a

/-- `get(k)`: `String(row[k] ?? row[k.trim()] ?? "").trim()`. -/
def rowGet (row : Row) (k : Str) : Str :=
  trimStr
    (match lookupStr row k with
     | some v => v
     | none =>
       match lookupStr row (trimStr k) with
       | some v => v
       | none => [])

/-- `anyVal(re)`: the value of the first column whose *name* matches the
predicate, untrimmed (`String(row[k] ?? "")`). -/
def anyVal (re : Str → Bool) (row : Row) : Str :=
  match row.find? (fun kv => re kv.1) with
  | some kv => kv.2
  | none => []

/-- Drop a literal pattern from the front, or fail. -/
def dropPre? (pat l : Str) : Option Str :=
  if prefixMatch l pat then some (l.drop pat.length) else none

/-- Skip a (possibly empty) whitespace run: the JS `\s*`. -/
def skipWs (l : Str) : Str := l.dropWhile wsChar

/-- Test some suffix position of the string (regex scan for an
unanchored match). -/
def scanHas (test : Str → Bool) : Str → Bool
  | [] => test []
  | c :: rest => test (c :: rest) || scanHas test rest

/-- Remainder after the first occurrence of a literal pattern. -/
def afterSub? : Str → Str → Option Str
  | [], pat => if pat.isEmpty then some [] else none
  | c :: rest, pat =>
    if prefixMatch (c :: rest) pat then some ((c :: rest).drop pat.length)
    else afterSub? rest pat

/-- `a\s*b` matching at the current position. -/
def seqWsAt (a b : Str) (l : Str) : Bool :=
  match dropPre? a l with
  | some r => prefixMatch (skipWs r) b
  | none => false

/-- Unanchored `a\s*b`. -/
def hasSeqWs (a b : Str) (l : Str) : Bool := scanHas (seqWsAt a b) l

/-- `a\s+b` matching at the current position (at least one whitespace). -/
def seqWs1At (a b : Str) (l : Str) : Bool :=
  match dropPre? a l with
  | some (c :: t) => wsChar c && prefixMatch (skipWs t) b
  | some [] => false
  | none => false

/-- Unanchored `a\s+b`. -/
def hasSeqWs1 (a b : Str) (l : Str) : Bool := scanHas (seqWs1At a b) l

/-- `counter\s*-?signed` at the current position (an optional dash after
the whitespace run). -/
def counterSignedAt (l : Str) : Bool :=
  match dropPre? (lit "counter") l with
  | some r =>
    let r2 := skipWs r
    let r3 := match r2 with
      | '-' :: t => t
      | _ => r2
    prefixMatch r3 (lit "signed")
  | none => false

/-- `/counter\s*-?signed|fully\s*executed|executed|signed/.test(sub)`. -/
def regexSignedTest (sub : Str) : Bool :=
  scanHas counterSignedAt sub || hasSeqWs (lit "fully") (lit "executed") sub ||
    containsSub sub (lit "executed") || containsSub sub (lit "signed")

/-- Split on newlines (JS `.` never matches `\n`, so each `.*` gap of a
regex lies within one line). -/
def splitOnNl : Str → List Str
  | [] => [[]]
  | c :: rest =>
    if c = '\n' then [] :: splitOnNl rest
    else
      match splitOnNl rest with
      | [] => [[c]]
      | l :: ls => (c :: l) :: ls

/-- Ordered containment of literal patterns within one string (the
`p₁.*p₂.*…` regex applied to a newline-free segment). -/
def seqContains : Str → List Str → Bool
  | _, [] => true
  | l, pat :: rest =>
    match afterSub? l pat with
    | some r => seqContains r rest
    | none => false

/-- `/awaiting.*investor.*signature|staff review/.test(sub)`. -/
def awaitingTest (sub : Str) : Bool :=
  (splitOnNl sub).any
      (fun line => seqContains line [lit "awaiting", lit "investor", lit "signature"]) ||
    containsSub sub (lit "staff review")

/-- `/started|draft|invited/.test(sub)`. -/
def startedTest (sub : Str) : Bool :=
  containsSub sub (lit "started") || containsSub sub (lit "draft") ||
    containsSub sub (lit "invited")

/-- `/subscription/i` on a column name. -/
def subscriptionKey (k : Str) : Bool := containsSub (lowerStr k) (lit "subscription")

/-- `data\s*room.*access` at the current position: "data", a whitespace
run (which may cross lines), "room", then "access" before the next
newline. -/
def dataRoomAccessAt (l : Str) : Bool :=
  match dropPre? (lit "data") l with
  | some r =>
    match dropPre? (lit "room") (skipWs r) with
    | some r2 => containsSub (r2.takeWhile (fun c => !(c = '\n'))) (lit "access")
    | none => false
  | none => false

/-- `/data\s*room.*access/i` on a column name. -/
def dataRoomAccessKey (k : Str) : Bool := scanHas dataRoomAccessAt (lowerStr k)

/-- `not\s*yet` at the current position. -/
def notYetAt (l : Str) : Bool :=
  match dropPre? (lit "not") l with
  | some r => prefixMatch (skipWs r) (lit "yet")
  | none => false

/-- `/not yet accessed|not\s*yet/.test(l)`. -/
def notYetTest (l : Str) : Bool :=
  containsSub l (lit "not yet accessed") || scanHas notYetAt l

/-- Split on `;` (JS `split(';')`, keeping empty segments). -/
def splitSemis : Str → List Str
  | [] => [[]]
  | c :: rest =>
    if c = ';' then [] :: splitSemis rest
    else
      match splitSemis rest with
      | [] => [[c]]
      | l :: ls => (c :: l) :: ls

/-- `/(jan|feb|mar|apr|may|jun|jul|aug|sep|oct|nov|dec)/i` on a segment. -/
def monthTok (p : Str) : Bool :=
  containsSub p (lit "jan") || containsSub p (lit "feb") || containsSub p (lit "mar") ||
    containsSub p (lit "apr") || containsSub p (lit "may") || containsSub p (lit "jun") ||
    containsSub p (lit "jul") || containsSub p (lit "aug") || containsSub p (lit "sep") ||
    containsSub p (lit "oct") || containsSub p (lit "nov") || containsSub p (lit "dec")

/-- `/[0-9]/.test(p)`. -/
def hasDigit (p : Str) : Bool := p.any (fun c => 48 ≤ c.toNat && c.toNat ≤ 57)

/-- `accessedFromDetail`: any semicolon segment that is not a
"not yet (accessed)" marker and carries a digit or month token counts as
an access event. -/
def accessedFromDetail (detailRaw : Str) : Bool :=
  let raw := trimStr detailRaw
  if raw = [] then false
  else
    (splitSemis raw).any (fun part =>
      let p := trimStr (lowerStr part)
      if p = [] then false
      else if containsSub p (lit "not yet accessed") || containsSub p (lit "not yet") then
        false
      else hasDigit p || monthTok (lowerStr part))

/-- `/granted|yes|y/.test(dataRoomGranted)`. -/
def grantedTest (g : Str) : Bool :=
  containsSub g (lit "granted") || containsSub g (lit "yes") || containsSub g (lit "y")

/-- `/ppm|pitch\s*deck|deck\s*sent/.test(latestUpdate)`. -/
def deckTest (l : Str) : Bool :=
  containsSub l (lit "ppm") || hasSeqWs (lit "pitch") (lit "deck") l ||
    hasSeqWs (lit "deck") (lit "sent") l

/-- A word character for the JS `\b` boundary. -/
def wordChar (c : Char) : Bool :=
  (48 ≤ c.toNat && c.toNat ≤ 57) || (65 ≤ c.toNat && c.toNat ≤ 90) ||
    (97 ≤ c.toNat && c.toNat ≤ 122) || c = '_'

/-- `intro\b` at the current position. -/
def introBAt (l : Str) : Bool :=
  match dropPre? (lit "intro") l with
  | some [] => true
  | some (c :: _) => !wordChar c
  | none => false

/-- `/first\s*meeting|meeting\s+scheduled|intro\s*call|intro\b/.test(latestUpdate)`. -/
def introLatestTest (l : Str) : Bool :=
  hasSeqWs (lit "first") (lit "meeting") l || hasSeqWs1 (lit "meeting") (lit "scheduled") l ||
    hasSeqWs (lit "intro") (lit "call") l || scanHas introBAt l

/-- `/intro|first\s*meeting/.test(prospectStatus)`. -/
def introProspectTest (l : Str) : Bool :=
  containsSub l (lit "intro") || hasSeqWs (lit "first") (lit "meeting") l

/-- `/contacted|engaged|early\s*dialogue/.test(prospectStatus)`. -/
def contactedTest (l : Str) : Bool :=
  containsSub l (lit "contacted") || containsSub l (lit "engaged") ||
    hasSeqWs (lit "early") (lit "dialogue") l

/-- `/target\s*identified/.test(prospectStatus)`. -/
def targetTest (l : Str) : Bool := hasSeqWs (lit "target") (lit "identified") l

/-- Deriver configuration: the `SUB_STATUS_TO_STAGE_JSON` exact-phrase
override table (keys lowercased; an unset variable is the empty table). -/
structure DeriverCfg where
  subOverrides : List (Str × Str)

/-- `mapSubStatusWithOverrides`: `overrides[sub.toLowerCase()] || null`. -/
def mapSubStatusWithOverrides (cfg : DeriverCfg) (sub : Str) : Option Str :=
  match lookupStr cfg.subOverrides (lowerStr sub) with
  | some v => if v = [] then none else some v
  | none => none

/-- The subscription signal of a row:
`lower(get("Subscription Status") || get("Subscription") || anyVal(/subscription/i))`. -/
def subOf (row : Row) : Str :=
  lowerStr
    (jsOrStr
      (jsOrStr (rowGet row (lit "Subscription Status")) (rowGet row (lit "Subscription")))
      (anyVal subscriptionKey row))

/-- `deriveStatusLabelFromRow`: override table, then the subscription
regex families, then data-room evidence, then prospect-level fallback
hints, in the source's order; the empty string is "undetermined". -/
def deriveStatusLabelFromRow (cfg : DeriverCfg) (row : Row) : Str :=
  let sub := subOf row
  match mapSubStatusWithOverrides cfg sub with
  | some o => o
  | none =>
    let dataRoomGranted := lowerStr (rowGet row (lit "Data room granted"))
    let dataRoomAccessDetailRaw :=
      jsOrStr (rowGet row (lit "Data room access detail"))
        (jsOrStr (rowGet row (lit " Data room access detail")) (anyVal dataRoomAccessKey row))
    let dataRoomLastAccessed := lowerStr (rowGet row (lit "Data room last accessed"))
    if regexSignedTest sub then lit "Sub Docs Signed"
    else if awaitingTest sub then lit "Ready for Sub Docs"
    else if startedTest sub then lit "Sub Docs Sent"
    else if accessedFromDetail dataRoomAccessDetailRaw then
      lit "Data Room Accessed / NDA Executed"
    else if dataRoomLastAccessed ≠ [] ∧ ¬notYetTest dataRoomLastAccessed then
      lit "Data Room Accessed / NDA Executed"
    else if grantedTest dataRoomGranted then lit "Invited to Data Room"
    else
      let prospectStatus := lowerStr (rowGet row (lit "Prospect Status"))
      let latestUpdate := lowerStr (rowGet row (lit "Latest update"))
      if containsSub prospectStatus (lit "soft") ∧ containsSub prospectStatus (lit "circled") then
        []
      else if deckTest latestUpdate then lit "Deck & PPM Sent"
      else if introLatestTest latestUpdate ∨ introProspectTest prospectStatus then
        lit "Intro/First Meeting"
      else if contactedTest prospectStatus then lit "Early Dialogue (Post-Intro)"
      else if targetTest prospectStatus ∨ prospectStatus = lit "new" then
        lit "Target Identified"
      else []

theorem mapSub_empty (s : Str) : mapSubStatusWithOverrides ⟨[]⟩ s = none := rfl

/-! ### Claim C6: derivation priority of the signed family -/

/-- C6: with the exact-phrase override table at its default (absent, hence
empty — the spec notes it is consulted first and would short-circuit),
every row whose subscription signal matches the
signed/executed/countersigned regex family derives "Sub Docs Signed",
regardless of the contents of any data-room or fallback fields of the
row: the subscription family is tested before every data-room and
prospect-level check. -/
theorem claim_C6_theorem (row : Row) (hsub : regexSignedTest (subOf row) = true) :
    deriveStatusLabelFromRow ⟨[]⟩ row = lit "Sub Docs Signed" := by
  simp only [deriveStatusLabelFromRow, mapSub_empty, hsub, if_true]

/-- C6 witness: the spec's Scenario 3 row — subscription status
"Countersigned by all parties" with live data-room and prospect fields
present — derives "Sub Docs Signed". -/
theorem claim_C6_witness :
    deriveStatusLabelFromRow ⟨[]⟩
      [(lit "Subscription Status", lit "Countersigned by all parties"),
       (lit "Data room granted", lit "granted"),
       (lit "Data room last accessed", lit "May 3 2024"),
       (lit "Prospect Status", lit "new")] = lit "Sub Docs Signed" :=
  claim_C6_theorem
    [(lit "Subscription Status", lit "Countersigned by all parties"),
     (lit "Data room granted", lit "granted"),
     (lit "Data room last accessed", lit "May 3 2024"),
     (lit "Prospect Status", lit "new")] (by decide)

/-! ### The entity classifier and the `PREFER_ORGANIZATIONS` flag -/

/-- An entity-like registry record (`e.entity`): optional explicit type
tags, optional first/last name fields, optional display name.  `none`
models an absent property. -/
structure EntityRec where
  type : Option Str
  entity_type : Option Str
  first_name : Option Str
  last_name : Option Str
  name : Option Str
deriving DecidableEq, Repr

/-- JS `a || b` where `a` is an optional string property (absent and empty
are both falsy). -/
def jsOrOpt (a : Option Str) (b : Str) : Str :=
  match a with
  | some s => if s = [] then b else s
  | none => b

/-- The organization keyword set of `isLikelyPersonName` (the source array
lists "foundation" twice; a JS `Set` dedups, with identical membership). -/
def orgKeywords : List Str :=
  [lit "inc", lit "llc", lit "ltd", lit "limited", lit "capital", lit "partners",
   lit "partner", lit "holdings", lit "group", lit "ventures", lit "foundation",
   lit "family", lit "company", lit "co", lit "plc", lit "bv", lit "gmbh",
   lit "sarl", lit "ag", lit "llp", lit "lp", lit "org", lit "foundation"]

/-- `isLikelyPersonName`: 2–4 normalized tokens, none an organization
keyword. -/
def isLikelyPersonName (name : Str) : Bool :=
  let parts := wordsOf (normalizeName name)
  if parts.length < 2 || parts.length > 4 then false
  else !parts.any (fun p => orgKeywords.contains p)

/-- `classifyEntityType`, with the module-level `PREFER_ORGANIZATIONS`
environment flag (line 36 of the source) passed in explicitly.  The
function body — explicit type tag, then first/last-name presence, then
the name-shape heuristic — never consults the flag. -/
def classifyEntityType (_preferOrganizations : Bool) (ent : EntityRec) : Str :=
  let typeRaw := lowerStr (jsOrOpt ent.type (jsOrOpt ent.entity_type []))
  if containsSub typeRaw (lit "person") || containsSub typeRaw (lit "people") ||
      containsSub typeRaw (lit "contact") then lit "person"
  else if containsSub typeRaw (lit "org") || containsSub typeRaw (lit "company") ||
      containsSub typeRaw (lit "organization") then lit "organization"
  else if jsOrOpt ent.first_name [] ≠ [] ∨ jsOrOpt ent.last_name [] ≠ [] then lit "person"
  else if isLikelyPersonName (jsOrOpt ent.name []) then lit "person"
  else lit "organization"

/-! ### Claim C8: the preference-bias flag is dead configuration -/

/-- C8 (counterexample): the claim asserts there exists an entity-like
input whose classification differs between a run with the
`PREFER_ORGANIZATIONS` bias flag set and one without; in fact no such
input exists — the flag is parsed from the environment and never used. -/
theorem claim_C8_counterexample :
    ¬∃ ent : EntityRec, classifyEntityType true ent ≠ classifyEntityType false ent := by
  intro h
  obtain ⟨ent, hne⟩ := h
  exact hne rfl

/-- C8 (amended): `PREFER_ORGANIZATIONS` is read from the environment but
never consulted; classification — and hence the per-row output — is
identical under every setting of the flag. -/
theorem claim_C8_theorem (b₁ b₂ : Bool) (ent : EntityRec) :
    classifyEntityType b₁ ent = classifyEntityType b₂ ent := rfl

/-! ### Claim C10: write at-most-once, no retry, partial failure -/

/-- The per-row result fields the write path produces
(`matched` / `updated` / `wouldUpdate` / captured upstream `error`). -/
structure RowResult where
  matched : Bool
  updated : Bool
  wouldUpdate : Bool
  error : Option Str
deriving DecidableEq, Repr

/-- The external write calls a row's control flow issues: exactly one
`updateStatus` POST for an Authorized decision, none for every skip —
the code has no retry path, so the list never grows beyond one even when
the call fails. -/
def rowWrites (d : WriteDecision) : List Nat :=
  match d with
  | .authorized oid => [oid]
  | _ => []

/-- The row's recorded outcome given its gate decision and the result of
the (single) write call: a failed write is caught and recorded as
`matched: true, updated: false` with the upstream error payload. -/
def rowOutcome (d : WriteDecision) (oracle : Except Str Unit) : RowResult :=
  match d with
  | .authorized _ =>
    match oracle with
    | .ok _ => ⟨true, true, false, none⟩
    | .error e => ⟨true, false, false, some e⟩
  | .wouldUpdate => ⟨true, false, true, none⟩
  | _ => ⟨true, false, false, none⟩

/-- One matched row end-to-end: gate decision, then outcome and writes. -/
def processRow (minLabel : Str) (aliases : List (Str × Str)) (tbl : List (Str × Nat))
    (dry : Bool) (current derived : Str) (oracle : Except Str Unit) :
    RowResult × List Nat :=
  (rowOutcome (gateDecide minLabel aliases tbl dry current derived) oracle,
   rowWrites (gateDecide minLabel aliases tbl dry current derived))

/-- The handler's loop: the try/catch sits inside the iteration, so every
row is processed and produces a result (partial failure, not
all-or-nothing). -/
def processRows (rows : List (WriteDecision × Except Str Unit)) : List RowResult :=
  rows.map (fun p => rowOutcome p.1 p.2)

/-- C10: per row the external write is invoked at most once and never
retried (the write list of every decision has length ≤ 1, also under a
failing oracle); when the write call errors, the row records
matched: true, updated: false with the upstream error payload and its one
write attempt; and every row of the batch yields a result (processing
continues past failures). -/
theorem claim_C10_theorem (minLabel : Str) (aliases : List (Str × Str))
    (tbl : List (Str × Nat)) (dry : Bool) (current derived : Str) (oid : Nat)
    (e : Str) (rows : List (WriteDecision × Except Str Unit))
    (hauth : gateDecide minLabel aliases tbl dry current derived = .authorized oid) :
    (∀ oracle, (processRow minLabel aliases tbl dry current derived oracle).2.length ≤ 1) ∧
    processRow minLabel aliases tbl dry current derived (.error e) =
      (⟨true, false, false, some e⟩, [oid]) ∧
    (processRows rows).length = rows.length := by
  refine ⟨?_, ?_, by simp [processRows]⟩
  · intro oracle
    rw [processRow, hauth]
    simp [rowWrites]
  · rw [processRow, hauth]
    rfl

/-- C10 witness: a concrete authorized row whose write fails with payload
"upstream 500" is recorded as matched-but-not-updated with that payload,
after exactly one write attempt. -/
theorem claim_C10_witness :
    (∀ oracle, (processRow (lit "Invited to Data Room") [] sampleTbl false
      (lit "Verbal Commit") (lit "Committed") oracle).2.length ≤ 1) ∧
    processRow (lit "Invited to Data Room") [] sampleTbl false
      (lit "Verbal Commit") (lit "Committed") (.error (lit "upstream 500")) =
      (⟨true, false, false, some (lit "upstream 500")⟩, [111]) ∧
    (processRows [(.authorized 111, .error (lit "upstream 500")),
      (.unchanged, .ok ())]).length = 2 :=
  claim_C10_theorem (lit "Invited to Data Room") [] sampleTbl false
    (lit "Verbal Commit") (lit "Committed") 111 (lit "upstream 500")
    [(.authorized 111, .error (lit "upstream 500")), (.unchanged, .ok ())]
    (by decide)

/-! ### Nickname table and person-key variants -/

/-- The default `NICKNAME_ALIASES` table (canonical → variants), as in
`loadNicknameAliases` with no environment override. -/
def NICKNAMES : List (Str × List Str) :=
  [(lit "alexander", [lit "alex"]),
   (lit "andrew", [lit "andy"]),
   (lit "anthony", [lit "tony"]),
   (lit "benjamin", [lit "ben"]),
   (lit "charles", [lit "charlie", lit "chuck"]),
   (lit "christopher", [lit "chris"]),
   (lit "daniel", [lit "dan", lit "danny"]),
   (lit "david", [lit "dave"]),
   (lit "elizabeth", [lit "liz", lit "beth", lit "lizzy", lit "eliza"]),
   (lit "jacob", [lit "jake"]),
   (lit "james", [lit "jim", lit "jimmy"]),
   (lit "jonathan", [lit "jon"]),
   (lit "joshua", [lit "josh"]),
   (lit "katherine", [lit "kate", lit "katie", lit "kat"]),
   (lit "louis", [lit "lou"]),
   (lit "matthew", [lit "matt"]),
   (lit "michael", [lit "mike"]),
   (lit "nicholas", [lit "nick"]),
   (lit "patrick", [lit "pat"]),
   (lit "robert", [lit "rob", lit "bob", lit "bobby"]),
   (lit "steven", [lit "steve"]),
   (lit "stephen", [lit "steve"]),
   (lit "thomas", [lit "tom"]),
   (lit "william", [lit "will", lit "bill", lit "billy"])]

/-- First/last tokens of a person name. -/
structure FirstLast where
  first : Str
  last : Str

/-- `firstLastFromPersonName`: split the person key; first token and last
token (single-token names have an empty last). -/
def firstLastFromPersonName (name : Str) : FirstLast :=
  match wordsOf (normalizePersonKey name) with
  | [] => ⟨[], []⟩
  | [p] => ⟨p, []⟩
  | p :: q :: rest => ⟨p, List.getLast (q :: rest) (by simp)⟩

/-- A JS `Set` built by successive insertion: order-preserving dedup. -/
def dedupStr : List Str → List Str
  | [] => []
  | x :: xs => x :: dedupStr (xs.filter (fun y => !(y = x)))
  termination_by l => l.length
  decreasing_by
  · simp only [List.length_cons]
    exact Nat.lt_succ_of_le (List.length_filter_le _ _)

/-- `personKeyVariants`: the first token, its nickname variants, and every
canonical form listing it as a variant, each recombined with the last
token and normalized. -/
def personKeyVariants (name : Str) : List Str :=
  let fl := firstLastFromPersonName name
  if fl.first = [] ∧ fl.last = [] then []
  else
    let firsts := dedupStr ([fl.first] ++
      (match lookupStr NICKNAMES fl.first with
       | some arr => arr
       | none => []) ++
      (NICKNAMES.filter (fun p => p.2.contains fl.first)).map Prod.fst)
    dedupStr (firsts.map (fun f => normalizeName (f ++ ' ' :: fl.last)))

/-! ### The matcher (handler lines 689–839) -/

/-- A registry list entry: id plus its entity record. -/
structure Entity where
  id : Nat
  entity : EntityRec
deriving DecidableEq, Repr

/-- The association names harvested for one entry. -/
structure AssocSets where
  assocPeople : List Str
  assocOrgs : List Str
deriving DecidableEq, Repr

/-- First-match lookup keyed by entry id (`associationsById.get`). -/
def lookupNat {α : Type} : List (Nat × α) → Nat → Option α
  | [], _ => none
  | (k, v) :: rest, key => if k = key then some v else lookupNat rest key

/-- The per-request registry index the handler builds before the row loop. -/
structure MatchCtx where
  orgKeyToEntry : List (Str × Entity)
  personKeyToEntry : List (Str × Entity)
  orgKeys : List Str
  personKeys : List Str
  associationsById : List (Nat × AssocSets)
  personAssocKeyToEntries : List (Str × List Entity)
  orgAssocKeyToEntries : List (Str × List Entity)

/-- `associationsById.get(id) || { assocPeople: [], assocOrgs: [] }`. -/
def getAssoc (ctx : MatchCtx) (id : Nat) : AssocSets :=
  (lookupNat ctx.associationsById id).getD ⟨[], []⟩

/-- The mutable `best` of the row loop. -/
structure BestMatch where
  entry : Option Entity
  type : Str
  score : ℚ
  name : Str
deriving DecidableEq, Repr

/-- `best = { entry: null, type: "", score: 0, name: "" }`. -/
def best0 : BestMatch := ⟨none, [], 0, []⟩

/-- One guarded assignment to `best`: the source pattern
`if (cond && newScore > best.score) best = cand`. -/
def updIf (cond : Prop) [Decidable cond] (cand b : BestMatch) : BestMatch :=
  if cond ∧ cand.score > b.score then cand else b

/-- The per-person-candidate body shared by both branches of pair path A:
an exact person-variant hit in the organization's association set updates
`best` at `exactScore` (1.0 in the direct branch, the fuzzy org rating in
the fuzzy branch); otherwise a fuzzy person match ≥ 0.9 updates it at the
rating (capped by the fuzzy org rating in the fuzzy branch). -/
def pathAPv (e : Entity) (origName : Str) (exactScore : ℚ) (cap : Option ℚ)
    (assoc : AssocSets) (pv : Str × List Str) (b : BestMatch) : BestMatch :=
  let assocPeopleNorm := assoc.assocPeople.map normalizePersonKey
  let exact := pv.2.find? (fun v => assocPeopleNorm.contains v)
  let b1 := updIf (exact.isSome = true) ⟨some e, lit "organization", exactScore, origName⟩ b
  if exact = none ∧ assocPeopleNorm ≠ [] then
    match safeBestMatchWithRating (normalizePersonKey pv.1) assocPeopleNorm with
    | some m =>
      let score := match cap with
        | some c => min m.2 c
        | none => m.2
      updIf (m.2 ≥ 9 / 10) ⟨some e, lit "organization", score, origName⟩ b1
    | none => b1
  else b1

/-- Pair path A for one organization candidate: resolve the entity by
exact OrgKey, else by fuzzy match ≥ 0.9 over the known OrgKeys, then
validate each person candidate against its association set. -/
def pathAOrg (ctx : MatchCtx) (pvs : List (Str × List Str)) (origName orgKey : Str)
    (b : BestMatch) : BestMatch :=
  match lookupStr ctx.orgKeyToEntry orgKey with
  | some orgEntry =>
    pvs.foldl (fun b pv => pathAPv orgEntry origName 1 none (getAssoc ctx orgEntry.id) pv b) b
  | none =>
    match safeBestMatchWithRating orgKey ctx.orgKeys with
    | some mOrg =>
      if mOrg.2 ≥ 9 / 10 then
        match lookupStr ctx.orgKeyToEntry mOrg.1 with
        | some e =>
          pvs.foldl (fun b pv => pathAPv e origName mOrg.2 (some mOrg.2) (getAssoc ctx e.id) pv b) b
        | none => b
      else b
    | none => b

/-- Pair path A over all organization candidates (name, OrgKey pairs). -/
def pathA (ctx : MatchCtx) (pvs : List (Str × List Str)) (orgPairs : List (Str × Str))
    (b : BestMatch) : BestMatch :=
  orgPairs.foldl (fun b p => pathAOrg ctx pvs p.1 p.2 b) b

/-- One organization candidate checked against a resolved person entity's
associated organizations (pair path B inner loop): an exact OrgKey hit
updates at `exactScore`, else a fuzzy hit ≥ 0.9 updates at the rating
(capped in the fuzzy-person branch). -/
def pathBOrgIter (e : Entity) (pvRaw : Str) (exactScore : ℚ) (cap : Option ℚ)
    (assocOrgsNorm : List Str) (ok : Str) (b : BestMatch) : BestMatch :=
  if assocOrgsNorm.contains ok = true ∧ exactScore > b.score then
    ⟨some e, lit "person", exactScore, pvRaw⟩
  else if assocOrgsNorm ≠ [] then
    match safeBestMatchWithRating ok assocOrgsNorm with
    | some m =>
      let score := match cap with
        | some c => min m.2 c
        | none => m.2
      updIf (m.2 ≥ 9 / 10) ⟨some e, lit "person", score, pvRaw⟩ b
    | none => b
  else b

/-- Pair path B, one person-key variant: a direct hit sets the
`foundDirect` flag and validates every organization candidate. -/
def pathBVariant (ctx : MatchCtx) (pvRaw : Str) (normOrgs : List Str) (acc : BestMatch × Bool)
    (v : Str) : BestMatch × Bool :=
  match lookupStr ctx.personKeyToEntry v with
  | some pEntry =>
    (normOrgs.foldl
      (fun b ok =>
        pathBOrgIter pEntry pvRaw 1 none
          ((getAssoc ctx pEntry.id).assocOrgs.map normalizeOrgKey) ok b)
      acc.1, true)
  | none => acc

/-- Pair path B for one person candidate: all variants directly, then — if
no variant hit directly — a fuzzy person match ≥ 0.9 validated against the
resolved entity's associated organizations. -/
def pathBPv (ctx : MatchCtx) (normOrgs : List Str) (pv : Str × List Str)
    (b : BestMatch) : BestMatch :=
  let res := pv.2.foldl (fun acc v => pathBVariant ctx pv.1 normOrgs acc v) (b, false)
  if res.2 then res.1
  else
    match safeBestMatchWithRating (normalizePersonKey pv.1) ctx.personKeys with
    | some mP =>
      if mP.2 ≥ 9 / 10 then
        match lookupStr ctx.personKeyToEntry mP.1 with
        | some e =>
          normOrgs.foldl
            (fun b ok =>
              pathBOrgIter e pv.1 mP.2 (some mP.2)
                ((getAssoc ctx e.id).assocOrgs.map normalizeOrgKey) ok b)
            res.1
        | none => res.1
      else res.1
    | none => res.1

/-- Pair path B over all person candidates. -/
def pathB (ctx : MatchCtx) (pvs : List (Str × List Str)) (normOrgs : List Str)
    (b : BestMatch) : BestMatch :=
  pvs.foldl (fun b pv => pathBPv ctx normOrgs pv b) b

/-- The row-type tag the association fallback records
(`classifyEntityType(e?.entity) === 'person' ? 'person' : 'organization'`). -/
def fallbackType (pref : Bool) (e : Entity) : Str :=
  if classifyEntityType pref e.entity = lit "person" then lit "person" else lit "organization"

/-- The multi-hit disambiguation of the association fallback: the first
listed entity whose associated-organization keys contain one of the row's
organization keys (the source breaks out of the loop at the first
acceptable entity). -/
def assocDisambig (ctx : MatchCtx) (normOrgs : List Str) (lst : List Entity) : Option Entity :=
  lst.find? (fun e =>
    normOrgs.any (fun ok => ((getAssoc ctx e.id).assocOrgs.map normalizeOrgKey).contains ok))

/-- Association fallback, one person-key variant: a unique
association-index hit scores 0.95; several hits disambiguated through the
row's organization candidates score 0.93. -/
def fallbackPersonVariant (ctx : MatchCtx) (pref : Bool) (name : Str) (normOrgs : List Str)
    (b : BestMatch) (v : Str) : BestMatch :=
  let lst := (lookupStr ctx.personAssocKeyToEntries v).getD []
  if lst.length = 1 ∧ (95 / 100 : ℚ) > b.score then
    match lst with
    | e :: _ => ⟨some e, fallbackType pref e, 95 / 100, name⟩
    | [] => b
  else if lst.length > 1 ∧ normOrgs ≠ [] then
    match assocDisambig ctx normOrgs lst with
    | some e => if (93 / 100 : ℚ) > b.score then ⟨some e, fallbackType pref e, 93 / 100, name⟩ else b
    | none => b
  else b

/-- Association fallback, one organization candidate: a unique hit in the
organization association index scores 0.92. -/
def fallbackOrgName (ctx : MatchCtx) (name : Str) (b : BestMatch) : BestMatch :=
  let lst := (lookupStr ctx.orgAssocKeyToEntries (normalizeOrgKey name)).getD []
  if lst.length = 1 ∧ (92 / 100 : ℚ) > b.score then
    match lst with
    | e :: _ => ⟨some e, lit "organization", 92 / 100, name⟩
    | [] => b
  else b

/-- The input candidates of one row. -/
structure RowCands where
  orgCandidates : List Str
  personCandidates : List Str

/-- The association-index fallback block (entered only when no pair
strategy produced an entity). -/
def assocFallback (ctx : MatchCtx) (pref : Bool) (rec : RowCands) (normOrgs : List Str)
    (b : BestMatch) : BestMatch :=
  let b1 := rec.personCandidates.foldl
    (fun b name => (personKeyVariants name).foldl (fallbackPersonVariant ctx pref name normOrgs) b) b
  rec.orgCandidates.foldl (fun b name => fallbackOrgName ctx name b) b1

/-- Type-only fallback, one organization candidate: direct OrgKey hit at
1.0, else fuzzy ≥ 0.88 (the stored entry is whatever the map yields for
the fuzzy target). -/
def typeOnlyOrg (ctx : MatchCtx) (name : Str) (b : BestMatch) : BestMatch :=
  match lookupStr ctx.orgKeyToEntry (normalizeOrgKey name) with
  | some direct => updIf True ⟨some direct, lit "organization", 1, name⟩ b
  | none =>
    match safeBestMatchWithRating (normalizeOrgKey name) ctx.orgKeys with
    | some m =>
      updIf (m.2 ≥ 88 / 100) ⟨lookupStr ctx.orgKeyToEntry m.1, lit "organization", m.2, name⟩ b
    | none => b

/-- Type-only fallback, person variants: the first direct hit that
improves the score updates `best`, sets `matched` and breaks. -/
def typeOnlyPersonVariants (ctx : MatchCtx) (name : Str) :
    List Str → BestMatch → BestMatch × Bool
  | [], b => (b, false)
  | v :: vs, b =>
    match lookupStr ctx.personKeyToEntry v with
    | some direct =>
      if (1 : ℚ) > b.score then (⟨some direct, lit "person", 1, name⟩, true)
      else typeOnlyPersonVariants ctx name vs b
    | none => typeOnlyPersonVariants ctx name vs b

/-- Type-only fallback, one person candidate: variants directly, else
fuzzy ≥ 0.85 over all known person keys. -/
def typeOnlyPerson (ctx : MatchCtx) (name : Str) (b : BestMatch) : BestMatch :=
  let res := typeOnlyPersonVariants ctx name (personKeyVariants name) b
  if res.2 then res.1
  else
    match safeBestMatchWithRating (normalizePersonKey name) ctx.personKeys with
    | some m =>
      updIf (m.2 ≥ 85 / 100) ⟨lookupStr ctx.personKeyToEntry m.1, lit "person", m.2, name⟩ res.1
    | none => res.1

/-- The type-only fallback block (entered only when still no entity). -/
def typeOnly (ctx : MatchCtx) (rec : RowCands) (b : BestMatch) : BestMatch :=
  let b1 := rec.orgCandidates.foldl (fun b name => typeOnlyOrg ctx name b) b
  rec.personCandidates.foldl (fun b name => typeOnlyPerson ctx name b) b1

/-- The whole per-row matcher evaluation from an arbitrary starting
`best` (the handler starts from `best0`): pair path A, pair path B, then —
only while no entity is matched — the association fallback and the
type-only fallback. -/
def evalRowFrom (ctx : MatchCtx) (pref : Bool) (rec : RowCands) (b : BestMatch) : BestMatch :=
  let pvs := rec.personCandidates.map (fun n => (n, personKeyVariants n))
  let orgPairs := rec.orgCandidates.map (fun n => (n, normalizeOrgKey n))
  let normOrgs := rec.orgCandidates.map normalizeOrgKey
  let b1 := pathA ctx pvs orgPairs b
  let b2 := pathB ctx pvs normOrgs b1
  let b3 := if b2.entry = none then assocFallback ctx pref rec normOrgs b2 else b2
  if b3.entry = none then typeOnly ctx rec b3 else b3

/-- The matcher: at most one best match per row, from the initial empty
`best`. -/
def evalRow (ctx : MatchCtx) (pref : Bool) (rec : RowCands) : BestMatch :=
  evalRowFrom ctx pref rec best0

/-! ### Monotonicity of the best-so-far evaluation -/

/-- A step of the row evaluation never lowers the best score, and any step
that changes `best` strictly raises it. -/
def scoreMono (f : BestMatch → BestMatch) : Prop :=
  ∀ b, b.score ≤ (f b).score ∧ (f b ≠ b → b.score < (f b).score)

theorem scoreMono_id : scoreMono (fun b => b) :=
  fun _ => ⟨le_refl _, fun h => absurd rfl h⟩

theorem scoreMono_skip {f : BestMatch → BestMatch} (b : BestMatch) (h : f b = b) :
    b.score ≤ (f b).score ∧ (f b ≠ b → b.score < (f b).score) := by
  rw [h]
  exact ⟨le_refl _, fun hne => absurd rfl hne⟩

theorem scoreMono_trans {f g : BestMatch → BestMatch} (hf : scoreMono f) (hg : scoreMono g) :
    scoreMono (fun b => g (f b)) := by
  intro b
  obtain ⟨h1, h2⟩ := hf b
  obtain ⟨h3, h4⟩ := hg (f b)
  refine ⟨le_trans h1 h3, ?_⟩
  intro hne
  have hne2 : g (f b) ≠ b := hne
  by_cases he : f b = b
  · rw [he] at h4 hne2
    show b.score < (g (f b)).score
    rw [he]
    exact h4 hne2
  · exact lt_of_lt_of_le (h2 he) h3

theorem scoreMono_foldl {α : Type} (step : BestMatch → α → BestMatch)
    (h : ∀ a, scoreMono (fun b => step b a)) (l : List α) :
    scoreMono (fun b => l.foldl step b) := by
  induction l with
  | nil => exact scoreMono_id
  | cons a t ih => exact scoreMono_trans (h a) ih

theorem scoreMono_updIf (c : Prop) [Decidable c] (cand : BestMatch) :
    scoreMono (fun b => updIf c cand b) := by
  intro b
  show b.score ≤ (updIf c cand b).score ∧ (updIf c cand b ≠ b → b.score < (updIf c cand b).score)
  rw [updIf]
  by_cases h : c ∧ cand.score > b.score
  · rw [if_pos h]
    exact ⟨le_of_lt h.2, fun _ => h.2⟩
  · rw [if_neg h]
    exact ⟨le_refl _, fun hne => absurd rfl hne⟩

/-- Chaining a non-lowering step after an already-taken prefix of the
evaluation. -/
theorem scoreMono_chain {b r : BestMatch} {s2 : BestMatch → BestMatch}
    (h1 : b.score ≤ r.score) (h1s : r ≠ b → b.score < r.score) (h2 : scoreMono s2) :
    b.score ≤ (s2 r).score ∧ (s2 r ≠ b → b.score < (s2 r).score) := by
  obtain ⟨h3, h4⟩ := h2 r
  refine ⟨le_trans h1 h3, ?_⟩
  intro hne
  by_cases he : r = b
  · rw [he] at h4 hne ⊢
    exact h4 hne
  · exact lt_of_lt_of_le (h1s he) h3

theorem scoreMono_pathAPv (e : Entity) (n : Str) (s : ℚ) (cap : Option ℚ)
    (assoc : AssocSets) (pv : Str × List Str) : scoreMono (pathAPv e n s cap assoc pv) := by
  intro b
  rw [pathAPv]
  have hbase := scoreMono_updIf
    ((pv.2.find? (fun v => (assoc.assocPeople.map normalizePersonKey).contains v)).isSome = true)
    (⟨some e, lit "organization", s, n⟩ : BestMatch) b
  by_cases hc : (pv.2.find? (fun v => (assoc.assocPeople.map normalizePersonKey).contains v)) = none ∧
      assoc.assocPeople.map normalizePersonKey ≠ []
  · rw [if_pos hc]
    cases hm : safeBestMatchWithRating (normalizePersonKey pv.1)
        (assoc.assocPeople.map normalizePersonKey) with
    | none => exact hbase
    | some m =>
      exact scoreMono_chain hbase.1 hbase.2
        (scoreMono_updIf (m.2 ≥ 9 / 10) _)
  · rw [if_neg hc]
    exact hbase

theorem scoreMono_pathAOrg (ctx : MatchCtx) (pvs : List (Str × List Str))
    (origName orgKey : Str) : scoreMono (pathAOrg ctx pvs origName orgKey) := by
  have hunfold : ∀ b, pathAOrg ctx pvs origName orgKey b =
      (match lookupStr ctx.orgKeyToEntry orgKey with
       | some orgEntry =>
         pvs.foldl (fun b pv => pathAPv orgEntry origName 1 none (getAssoc ctx orgEntry.id) pv b) b
       | none =>
         match safeBestMatchWithRating orgKey ctx.orgKeys with
         | some mOrg =>
           if mOrg.2 ≥ 9 / 10 then
             match lookupStr ctx.orgKeyToEntry mOrg.1 with
             | some e =>
               pvs.foldl
                 (fun b pv => pathAPv e origName mOrg.2 (some mOrg.2) (getAssoc ctx e.id) pv b) b
             | none => b
           else b
         | none => b) := fun _ => rfl
  intro b
  rw [hunfold]
  cases lookupStr ctx.orgKeyToEntry orgKey with
  | some orgEntry =>
    simp only []
    exact scoreMono_foldl
      (fun b pv => pathAPv orgEntry origName 1 none (getAssoc ctx orgEntry.id) pv b)
      (fun pv => scoreMono_pathAPv orgEntry origName 1 none (getAssoc ctx orgEntry.id) pv) pvs b
  | none =>
    simp only []
    cases safeBestMatchWithRating orgKey ctx.orgKeys with
    | none => exact ⟨le_refl _, fun hne => absurd rfl hne⟩
    | some mOrg =>
      simp only []
      by_cases h9 : mOrg.2 ≥ 9 / 10
      · rw [if_pos h9]
        cases lookupStr ctx.orgKeyToEntry mOrg.1 with
        | some e =>
          simp only []
          exact scoreMono_foldl
            (fun b pv => pathAPv e origName mOrg.2 (some mOrg.2) (getAssoc ctx e.id) pv b)
            (fun pv => scoreMono_pathAPv e origName mOrg.2 (some mOrg.2) (getAssoc ctx e.id) pv)
            pvs b
        | none => exact ⟨le_refl _, fun hne => absurd rfl hne⟩
      · rw [if_neg h9]
        exact ⟨le_refl _, fun hne => absurd rfl hne⟩

set_option maxHeartbeats 1000000 in
theorem scoreMono_pathA (ctx : MatchCtx) (pvs : List (Str × List Str))
    (orgPairs : List (Str × Str)) : scoreMono (pathA ctx pvs orgPairs) := by
  have h : ∀ b, pathA ctx pvs orgPairs b =
      orgPairs.foldl (fun b p => pathAOrg ctx pvs p.1 p.2 b) b := fun _ => rfl
  intro b
  rw [h]
  exact scoreMono_foldl (fun b p => pathAOrg ctx pvs p.1 p.2 b)
    (fun p => scoreMono_pathAOrg ctx pvs p.1 p.2) orgPairs b

theorem scoreMono_pathBOrgIter (e : Entity) (pvRaw : Str) (s : ℚ) (cap : Option ℚ)
    (aon : List Str) (ok : Str) : scoreMono (pathBOrgIter e pvRaw s cap aon ok) := by
  intro b
  rw [pathBOrgIter]
  by_cases h1 : aon.contains ok = true ∧ s > b.score
  · rw [if_pos h1]
    exact ⟨le_of_lt h1.2, fun _ => h1.2⟩
  · rw [if_neg h1]
    by_cases h2 : aon ≠ []
    · rw [if_pos h2]
      cases hm : safeBestMatchWithRating ok aon with
      | none => exact ⟨le_refl _, fun hne => absurd rfl hne⟩
      | some m => exact scoreMono_updIf (m.2 ≥ 9 / 10) _ b
    · rw [if_neg h2]
      exact ⟨le_refl _, fun hne => absurd rfl hne⟩

/-- Monotonicity through the `(best, foundDirect)` pair state of path B
and the type-only person loop. -/
def scoreMonoP (f : BestMatch × Bool → BestMatch × Bool) : Prop :=
  ∀ p, p.1.score ≤ (f p).1.score ∧ ((f p).1 ≠ p.1 → p.1.score < (f p).1.score)

theorem scoreMonoP_foldl {α : Type} (step : BestMatch × Bool → α → BestMatch × Bool)
    (h : ∀ a, scoreMonoP (fun p => step p a)) (l : List α) :
    scoreMonoP (fun p => l.foldl step p) := by
  induction l with
  | nil => exact fun p => ⟨le_refl _, fun hne => absurd rfl hne⟩
  | cons a t ih =>
    intro p
    obtain ⟨h1, h2⟩ := h a p
    obtain ⟨h3, h4⟩ := ih (step p a)
    refine ⟨le_trans h1 h3, ?_⟩
    intro hne
    have hne2 : (t.foldl step (step p a)).1 ≠ p.1 := hne
    by_cases he : (step p a).1 = p.1
    · rw [he] at h4
      show p.1.score < (t.foldl step (step p a)).1.score
      exact h4 hne2
    · exact lt_of_lt_of_le (h2 he) h3

theorem scoreMonoP_pathBVariant (ctx : MatchCtx) (pvRaw : Str) (normOrgs : List Str)
    (v : Str) : scoreMonoP (fun acc => pathBVariant ctx pvRaw normOrgs acc v) := by
  intro p
  have hunfold : pathBVariant ctx pvRaw normOrgs p v =
      (match lookupStr ctx.personKeyToEntry v with
       | some pEntry =>
         (normOrgs.foldl
           (fun b ok =>
             pathBOrgIter pEntry pvRaw 1 none
               ((getAssoc ctx pEntry.id).assocOrgs.map normalizeOrgKey) ok b)
           p.1, true)
       | none => p) := rfl
  show p.1.score ≤ (pathBVariant ctx pvRaw normOrgs p v).1.score ∧
    ((pathBVariant ctx pvRaw normOrgs p v).1 ≠ p.1 →
      p.1.score < (pathBVariant ctx pvRaw normOrgs p v).1.score)
  rw [hunfold]
  cases lookupStr ctx.personKeyToEntry v with
  | none => exact ⟨le_refl _, fun hne => absurd rfl hne⟩
  | some pEntry =>
    simp only []
    exact scoreMono_foldl
      (fun b ok =>
        pathBOrgIter pEntry pvRaw 1 none
          ((getAssoc ctx pEntry.id).assocOrgs.map normalizeOrgKey) ok b)
      (fun ok => scoreMono_pathBOrgIter pEntry pvRaw 1 none
        ((getAssoc ctx pEntry.id).assocOrgs.map normalizeOrgKey) ok) normOrgs p.1

theorem scoreMono_pathBPv (ctx : MatchCtx) (normOrgs : List Str) (pv : Str × List Str) :
    scoreMono (pathBPv ctx normOrgs pv) := by
  intro b
  rw [pathBPv]
  have hres := scoreMonoP_foldl (fun acc v => pathBVariant ctx pv.1 normOrgs acc v)
    (fun v => scoreMonoP_pathBVariant ctx pv.1 normOrgs v) pv.2 (b, false)
  set res := pv.2.foldl (fun acc v => pathBVariant ctx pv.1 normOrgs acc v) (b, false) with hrd
  by_cases hflag : res.2 = true
  · rw [if_pos hflag]
    exact ⟨hres.1, hres.2⟩
  · rw [if_neg hflag]
    cases hm : safeBestMatchWithRating (normalizePersonKey pv.1) ctx.personKeys with
    | none => exact ⟨hres.1, hres.2⟩
    | some mP =>
      simp only []
      by_cases h9 : mP.2 ≥ 9 / 10
      · rw [if_pos h9]
        cases hl : lookupStr ctx.personKeyToEntry mP.1 with
        | none => exact ⟨hres.1, hres.2⟩
        | some e =>
          simp only []
          exact scoreMono_chain hres.1 hres.2
            (scoreMono_foldl
              (fun b ok =>
                pathBOrgIter e pv.1 mP.2 (some mP.2)
                  ((getAssoc ctx e.id).assocOrgs.map normalizeOrgKey) ok b)
              (fun ok => scoreMono_pathBOrgIter e pv.1 mP.2 (some mP.2)
                ((getAssoc ctx e.id).assocOrgs.map normalizeOrgKey) ok) normOrgs)
      · rw [if_neg h9]
        exact ⟨hres.1, hres.2⟩

theorem scoreMono_pathB (ctx : MatchCtx) (pvs : List (Str × List Str))
    (normOrgs : List Str) : scoreMono (pathB ctx pvs normOrgs) := by
  intro b
  rw [pathB]
  exact scoreMono_foldl (fun b pv => pathBPv ctx normOrgs pv b)
    (fun pv => scoreMono_pathBPv ctx normOrgs pv) pvs b

theorem scoreMono_fallbackPersonVariant (ctx : MatchCtx) (pref : Bool) (name : Str)
    (normOrgs : List Str) (v : Str) :
    scoreMono (fun b => fallbackPersonVariant ctx pref name normOrgs b v) := by
  intro b
  show b.score ≤ (fallbackPersonVariant ctx pref name normOrgs b v).score ∧
    (fallbackPersonVariant ctx pref name normOrgs b v ≠ b →
      b.score < (fallbackPersonVariant ctx pref name normOrgs b v).score)
  rw [fallbackPersonVariant]
  set lst := (lookupStr ctx.personAssocKeyToEntries v).getD [] with hld
  by_cases h1 : lst.length = 1 ∧ (95 / 100 : ℚ) > b.score
  · rw [if_pos h1]
    cases lst with
    | nil => exact ⟨le_refl _, fun hne => absurd rfl hne⟩
    | cons e t => exact ⟨le_of_lt h1.2, fun _ => h1.2⟩
  · rw [if_neg h1]
    by_cases h2 : lst.length > 1 ∧ normOrgs ≠ []
    · rw [if_pos h2]
      cases assocDisambig ctx normOrgs lst with
      | none => exact ⟨le_refl _, fun hne => absurd rfl hne⟩
      | some e =>
        simp only []
        by_cases h3 : (93 / 100 : ℚ) > b.score
        · rw [if_pos h3]
          exact ⟨le_of_lt h3, fun _ => h3⟩
        · rw [if_neg h3]
          exact ⟨le_refl _, fun hne => absurd rfl hne⟩
    · rw [if_neg h2]
      exact ⟨le_refl _, fun hne => absurd rfl hne⟩

theorem scoreMono_fallbackOrgName (ctx : MatchCtx) (name : Str) :
    scoreMono (fallbackOrgName ctx name) := by
  intro b
  rw [fallbackOrgName]
  set lst := (lookupStr ctx.orgAssocKeyToEntries (normalizeOrgKey name)).getD [] with hld
  by_cases h1 : lst.length = 1 ∧ (92 / 100 : ℚ) > b.score
  · rw [if_pos h1]
    cases lst with
    | nil => exact ⟨le_refl _, fun hne => absurd rfl hne⟩
    | cons e t => exact ⟨le_of_lt h1.2, fun _ => h1.2⟩
  · rw [if_neg h1]
    exact ⟨le_refl _, fun hne => absurd rfl hne⟩

theorem scoreMono_assocFallback (ctx : MatchCtx) (pref : Bool) (rec : RowCands)
    (normOrgs : List Str) : scoreMono (assocFallback ctx pref rec normOrgs) := by
  have h1 : scoreMono (fun b => rec.personCandidates.foldl
      (fun b name => (personKeyVariants name).foldl
        (fallbackPersonVariant ctx pref name normOrgs) b) b) :=
    scoreMono_foldl
      (fun b name => (personKeyVariants name).foldl
        (fallbackPersonVariant ctx pref name normOrgs) b)
      (fun name => scoreMono_foldl (fallbackPersonVariant ctx pref name normOrgs)
        (fun v => scoreMono_fallbackPersonVariant ctx pref name normOrgs v)
        (personKeyVariants name))
      rec.personCandidates
  have h2 : scoreMono (fun b => rec.orgCandidates.foldl
      (fun b name => fallbackOrgName ctx name b) b) :=
    scoreMono_foldl (fun b name => fallbackOrgName ctx name b)
      (fun name => scoreMono_fallbackOrgName ctx name) rec.orgCandidates
  intro b
  exact scoreMono_trans h1 h2 b

theorem scoreMono_typeOnlyOrg (ctx : MatchCtx) (name : Str) :
    scoreMono (typeOnlyOrg ctx name) := by
  intro b
  rw [typeOnlyOrg]
  cases lookupStr ctx.orgKeyToEntry (normalizeOrgKey name) with
  | some direct => exact scoreMono_updIf True _ b
  | none =>
    cases safeBestMatchWithRating (normalizeOrgKey name) ctx.orgKeys with
    | none => exact ⟨le_refl _, fun hne => absurd rfl hne⟩
    | some m => exact scoreMono_updIf (m.2 ≥ 88 / 100) _ b

theorem scoreMonoP_typeOnlyPersonVariants (ctx : MatchCtx) (name : Str) (vs : List Str) :
    ∀ b : BestMatch, b.score ≤ (typeOnlyPersonVariants ctx name vs b).1.score ∧
      ((typeOnlyPersonVariants ctx name vs b).1 ≠ b →
        b.score < (typeOnlyPersonVariants ctx name vs b).1.score) := by
  induction vs with
  | nil => intro b; exact ⟨le_refl _, fun hne => absurd rfl hne⟩
  | cons v t ih =>
    intro b
    rw [typeOnlyPersonVariants]
    cases lookupStr ctx.personKeyToEntry v with
    | some direct =>
      simp only []
      by_cases h1 : (1 : ℚ) > b.score
      · rw [if_pos h1]
        exact ⟨le_of_lt h1, fun _ => h1⟩
      · rw [if_neg h1]
        exact ih b
    | none => exact ih b

theorem scoreMono_typeOnlyPerson (ctx : MatchCtx) (name : Str) :
    scoreMono (typeOnlyPerson ctx name) := by
  intro b
  rw [typeOnlyPerson]
  have hres := scoreMonoP_typeOnlyPersonVariants ctx name (personKeyVariants name) b
  set res := typeOnlyPersonVariants ctx name (personKeyVariants name) b with hrd
  by_cases hflag : res.2 = true
  · rw [if_pos hflag]
    exact hres
  · rw [if_neg hflag]
    cases safeBestMatchWithRating (normalizePersonKey name) ctx.personKeys with
    | none => exact hres
    | some m =>
      exact scoreMono_chain hres.1 hres.2 (scoreMono_updIf (m.2 ≥ 85 / 100) _)

theorem scoreMono_typeOnly (ctx : MatchCtx) (rec : RowCands) :
    scoreMono (typeOnly ctx rec) := by
  have h1 : scoreMono (fun b => rec.orgCandidates.foldl (fun b name => typeOnlyOrg ctx name b) b) :=
    scoreMono_foldl (fun b name => typeOnlyOrg ctx name b)
      (fun name => scoreMono_typeOnlyOrg ctx name) rec.orgCandidates
  have h2 : scoreMono (fun b =>
      rec.personCandidates.foldl (fun b name => typeOnlyPerson ctx name b) b) :=
    scoreMono_foldl (fun b name => typeOnlyPerson ctx name b)
      (fun name => scoreMono_typeOnlyPerson ctx name) rec.personCandidates
  intro b
  exact scoreMono_trans h1 h2 b

theorem scoreMono_guard (p : BestMatch → Prop) [DecidablePred p] {f : BestMatch → BestMatch}
    (hf : scoreMono f) : scoreMono (fun b => if p b then f b else b) := by
  intro b
  show b.score ≤ (if p b then f b else b).score ∧
    ((if p b then f b else b) ≠ b → b.score < (if p b then f b else b).score)
  by_cases h : p b
  · rw [if_pos h]; exact hf b
  · rw [if_neg h]; exact ⟨le_refl _, fun hne => absurd rfl hne⟩

theorem scoreMono_evalRowFrom (ctx : MatchCtx) (pref : Bool) (rec : RowCands) :
    scoreMono (evalRowFrom ctx pref rec) := by
  have h3 : scoreMono (fun b2 => if b2.entry = none then
      assocFallback ctx pref rec (rec.orgCandidates.map normalizeOrgKey) b2 else b2) := by
    have hg := scoreMono_guard (fun b => b.entry = none)
      (scoreMono_assocFallback ctx pref rec (rec.orgCandidates.map normalizeOrgKey))
    exact hg
  have h4 : scoreMono (fun b3 => if b3.entry = none then typeOnly ctx rec b3 else b3) :=
    scoreMono_guard (fun b => b.entry = none) (scoreMono_typeOnly ctx rec)
  intro b
  exact scoreMono_trans
    (scoreMono_trans
      (scoreMono_pathA ctx (rec.personCandidates.map (fun n => (n, personKeyVariants n)))
        (rec.orgCandidates.map (fun n => (n, normalizeOrgKey n))))
      (scoreMono_pathB ctx (rec.personCandidates.map (fun n => (n, personKeyVariants n)))
        (rec.orgCandidates.map normalizeOrgKey)))
    (scoreMono_trans h3 h4) b

/-! ### Claim C9: matcher monotonicity and uniqueness -/

/-- An empty registry index. -/
def emptyCtx : MatchCtx := ⟨[], [], [], [], [], [], []⟩

/-- C9: over one row's whole evaluation — all candidates across pair
path A, pair path B, the association fallback and the type-only fallback —
the best-so-far score never decreases, and whenever evaluation changes the
best match at all, its score strictly increases (every source update site
is guarded by `newScore > best.score`).  The matcher returns exactly one
`BestMatch` value per row (the evaluation is a function into a single
best-so-far record, so no ambiguous tie can be returned), starting from
the empty `best0`. -/
theorem claim_C9_theorem (ctx : MatchCtx) (pref : Bool) (rec : RowCands) (b : BestMatch) :
    (b.score ≤ (evalRowFrom ctx pref rec b).score ∧
      (evalRowFrom ctx pref rec b ≠ b → b.score < (evalRowFrom ctx pref rec b).score)) ∧
    evalRow ctx pref rec = evalRowFrom ctx pref rec best0 :=
  ⟨scoreMono_evalRowFrom ctx pref rec b, rfl⟩

/-- C9 witness: the monotonicity facts instantiated at a concrete index
and row. -/
theorem claim_C9_witness :
    (best0.score ≤ (evalRowFrom emptyCtx false
        ⟨[lit "Acme Capital, LLC"], [lit "Matt Lee"]⟩ best0).score ∧
      (evalRowFrom emptyCtx false ⟨[lit "Acme Capital, LLC"], [lit "Matt Lee"]⟩ best0 ≠ best0 →
        best0.score < (evalRowFrom emptyCtx false
          ⟨[lit "Acme Capital, LLC"], [lit "Matt Lee"]⟩ best0).score)) ∧
    evalRow emptyCtx false ⟨[lit "Acme Capital, LLC"], [lit "Matt Lee"]⟩ =
      evalRowFrom emptyCtx false ⟨[lit "Acme Capital, LLC"], [lit "Matt Lee"]⟩ best0 :=
  claim_C9_theorem emptyCtx false ⟨[lit "Acme Capital, LLC"], [lit "Matt Lee"]⟩ best0

end UploadSync
